import Mathlib

/-!
Verification of the opfs-cache repository (an OPFS-backed substitute for the
browser Cache interface) against its natural-language specification.

The embedding models:
  * the Origin Private File System as a tree of named nodes (`Node`); the
    cache's namespaced root directory is the tree's root;
  * OPFS handle operations (`getDirectoryHandle`, `getFileHandle`,
    `removeEntry`, `createWritable`) as explicit-state functions on the tree,
    where a live directory handle is represented by the path that reaches it;
  * DOMException kinds relevant to the code (`NotFoundError`,
    `TypeMismatchError`, `InvalidModificationError`) plus the resolver's
    TypeError and JSON parse failure as an error type `Err`;
  * file contents as `Content`: raw data bytes, a serialized metadata sidecar
    (`JSON.stringify` of a `CacheEntryMeta`, kept abstract but injective), or
    unparseable text;
  * the WHATWG URL platform API as a simplified parser `parseURL` that
    extracts `pathname` and `search` from absolute URL strings (the resolver
    in `src/path.ts` only consumes these two fields);
  * a Response as a record of status, statusText, headers, optional body
    bytes, and the bodyUsed flag.

Each definition below mirrors the corresponding source function of
`src/path.ts`, `src/fs.ts`, `src/cache.ts` and `src/error.ts`.
-/

open scoped List

/-- Error kinds: the DOMException names distinguished by the code
(`isNotFound` in src/error.ts tests `NotFoundError`), the TypeError thrown
by `resolvePath` and `put`, the JSON parse failure, and a catch-all. -/
inductive Err where
  | notFound
  | typeMismatch
  | invalidModification
  | typeError (msg : String)
  | parseError
  | other (msg : String)
deriving DecidableEq, Repr

/-- Metadata persisted in the `.meta` sidecar (src/types.ts, populated in
`OPFSCache.put`): headers as an association list (the result of
`Object.fromEntries(response.headers)`), status and statusText. -/
structure CacheEntryMeta where
  headers : List (String × String)
  status : Nat
  statusText : String
deriving DecidableEq, Repr

/-- File contents. `data` is raw body bytes. `json m` is the text produced by
`JSON.stringify m` (kept abstract: the encoding is injective and
`JSON.parse` inverts it). `invalid` is text on which `JSON.parse` fails. -/
inductive Content where
  | data (bytes : List Nat)
  | json (m : CacheEntryMeta)
  | invalid
deriving DecidableEq, Repr

/-- A node of the OPFS tree: a file with contents, or a directory whose
children are an ordered association list of named nodes (creation order;
the spec leaves directory iteration order unspecified). -/
inductive Node where
  | file (c : Content)
  | dir (entries : List (String × Node))

/-- `JSON.parse` applied to a sidecar's text, as `readEntry` does: inverts
`JSON.stringify` and throws a (non-NotFound) SyntaxError on anything else. -/
def JSONparse : Content → Except Err CacheEntryMeta
  | .json m => .ok m
  | _ => .error .parseError

/-- src/fs.ts: `const META_SUFFIX = ".meta"`. -/
def META_SUFFIX : String := ".meta"

/-- Models JavaScript `name.endsWith(META_SUFFIX)` from `walk` in src/fs.ts. -/
def endsWithMeta (name : String) : Bool :=
  decide (META_SUFFIX.data <:+ name.data)

/-- Directory child lookup by name (OPFS names are unique within a dir). -/
def findEntry : List (String × Node) → String → Option Node
  | [], _ => none
  | (k, v) :: rest, name => if k = name then some v else findEntry rest name

/-- Replace the named child in place, or append it (creation appends). -/
def setEntry : List (String × Node) → String → Node → List (String × Node)
  | [], name, n => [(name, n)]
  | (k, v) :: rest, name, n =>
      if k = name then (k, n) :: rest else (k, v) :: setEntry rest name n

/-- Remove the named child (OPFS `removeEntry` on success). -/
def eraseEntry : List (String × Node) → String → List (String × Node)
  | [], _ => []
  | (k, v) :: rest, name => if k = name then rest else (k, v) :: eraseEntry rest name

/-- Dereference a directory handle: the children of the directory reached by
following `path` from `t`, or `none` if the path is missing or crosses a
file. -/
def dirEntriesAt : Node → List String → Option (List (String × Node))
  | .dir es, [] => some es
  | .file _, [] => none
  | .dir es, s :: rest =>
      match findEntry es s with
      | some n => dirEntriesAt n rest
      | none => none
  | .file _, _ :: _ => none

/-- Write back the children of the directory reached by `path` (mutation
through a live directory handle). Unchanged when the path does not reach a
directory. -/
def setDirAt : Node → List String → List (String × Node) → Node
  | .dir _, [], newEs => .dir newEs
  | .file c, [], _ => .file c
  | .dir es, s :: rest, newEs =>
      match findEntry es s with
      | some n => .dir (setEntry es s (setDirAt n rest newEs))
      | none => .dir es
  | .file c, _ :: _, _ => .file c

/-- `OPFSFileSystem.navigate` (src/fs.ts 22-36): walk a chain of nested
directories from the root. Returns the updated tree plus `true` when the
directory chain exists (the handle is then the full path); with
`create = false` a missing directory yields `false` (the source returns
`undefined`). A segment occupied by a file makes `getDirectoryHandle` throw
`TypeMismatchError`, which is not NotFound and propagates. -/
def navigate : Node → List String → Bool → Except Err (Node × Bool)
  | t, [], _ => .ok (t, true)
  | .dir es, s :: rest, create =>
      match findEntry es s with
      | some (.dir sub) =>
          (navigate (.dir sub) rest create).map
            (fun p => (.dir (setEntry es s p.1), p.2))
      | some (.file _) => .error .typeMismatch
      | none =>
          if create then
            (navigate (.dir []) rest true).map
              (fun p => (.dir (setEntry es s p.1), p.2))
          else .ok (.dir es, false)
  | .file _, _ :: _, _ => .error .typeMismatch

/-- OPFS `dir.getFileHandle(name, {create})` through the handle at `path`:
returns the (possibly updated) tree and the file's contents. A directory at
`name` throws `TypeMismatchError`; a missing name throws `NotFoundError`
unless `create` is set, in which case an empty file is created. -/
def getFileHandle (t : Node) (path : List String) (name : String)
    (create : Bool) : Except Err (Node × Content) :=
  match dirEntriesAt t path with
  | none => .error (.other "stale handle")
  | some es =>
      match findEntry es name with
      | some (.file c) => .ok (t, c)
      | some (.dir _) => .error .typeMismatch
      | none =>
          if create then
            .ok (setDirAt t path (setEntry es name (.file (.data []))), .data [])
          else .error .notFound

/-- OPFS `createWritable` / `write` / `close` on the file `name` in the
directory at `path`: commit `c` as the file's full contents. -/
def writeFileAt (t : Node) (path : List String) (name : String)
    (c : Content) : Node :=
  match dirEntriesAt t path with
  | some es => setDirAt t path (setEntry es name (.file c))
  | none => t

/-- OPFS `dir.removeEntry(name)` through the handle at `path`: removes a file
or an empty directory; throws `InvalidModificationError` on a non-empty
directory and `NotFoundError` when absent (or the handle is stale). -/
def removeEntryE (t : Node) (path : List String) (name : String) :
    Except Err Node :=
  match dirEntriesAt t path with
  | none => .error .notFound
  | some es =>
      match findEntry es name with
      | none => .error .notFound
      | some (.file _) => .ok (setDirAt t path (eraseEntry es name))
      | some (.dir sub) =>
          if sub.isEmpty then .ok (setDirAt t path (eraseEntry es name))
          else .error .invalidModification

/-- `OPFSFileSystem.exists` (src/fs.ts 39-49): navigate without creating;
missing directory chain means `false`; then probe the data file only.
NotFound yields `false`; other errors propagate. -/
def OPFSFileSystem.exists (t : Node) (dirSegments : List String)
    (fileName : String) : Except Err Bool :=
  match navigate t dirSegments false with
  | .error e => .error e
  | .ok (t1, found) =>
      if found then
        match getFileHandle t1 dirSegments fileName false with
        | .ok _ => .ok true
        | .error .notFound => .ok false
        | .error e => .error e
      else .ok false

/-- The value produced by `readEntry` on a hit: the data file's contents and
the parsed sidecar when one was readable. -/
structure Entry where
  file : Content
  meta : Option CacheEntryMeta
deriving DecidableEq, Repr

/-- `OPFSFileSystem.readEntry` (src/fs.ts 54-79): miss (`none`) when the
directory chain or the data file is absent; the sidecar is read best-effort
(its absence is swallowed, but a parse failure or any non-NotFound error
propagates). -/
def OPFSFileSystem.readEntry (t : Node) (dirSegments : List String)
    (fileName : String) : Except Err (Option Entry) :=
  match navigate t dirSegments false with
  | .error e => .error e
  | .ok (t1, found) =>
      if found then
        match getFileHandle t1 dirSegments fileName false with
        | .error .notFound => .ok none
        | .error e => .error e
        | .ok (_, dataC) =>
            match getFileHandle t1 dirSegments (fileName ++ META_SUFFIX) false with
            | .error .notFound => .ok (some ⟨dataC, none⟩)
            | .error e => .error e
            | .ok (_, metaC) =>
                match JSONparse metaC with
                | .ok m => .ok (some ⟨dataC, some m⟩)
                | .error e => .error e
      else .ok none

/-- The body bytes committed by `write`: a null body yields an empty file
(`createWritable` then `close`), otherwise the stream is piped in full. -/
def bytesOf : Option (List Nat) → List Nat
  | none => []
  | some b => b

/-- The first half of `OPFSFileSystem.write` (src/fs.ts 90-101), up to and
including the commit (`close`) of the metadata sidecar: navigate with
creation, then create and fully write `fileName + META_SUFFIX`. This is the
state visible if the write is interrupted after the sidecar commit and
before the data file is touched. -/
def OPFSFileSystem.writeMetaPhase (t : Node) (dirSegments : List String)
    (fileName : String) (meta : CacheEntryMeta) : Except Err Node :=
  match navigate t dirSegments true with
  | .error e => .error e
  | .ok (t1, found) =>
      if found then
        match getFileHandle t1 dirSegments (fileName ++ META_SUFFIX) true with
        | .error e => .error e
        | .ok (t2, _) =>
            .ok (writeFileAt t2 dirSegments (fileName ++ META_SUFFIX) (.json meta))
      else .error (.other "Failed to create directory structure")

/-- The second half of `OPFSFileSystem.write` (src/fs.ts 103-109): create the
data file and commit the body bytes. -/
def OPFSFileSystem.writeDataPhase (t3 : Node) (dirSegments : List String)
    (fileName : String) (body : Option (List Nat)) : Except Err Node :=
  match getFileHandle t3 dirSegments fileName true with
  | .error e => .error e
  | .ok (t4, _) => .ok (writeFileAt t4 dirSegments fileName (.data (bytesOf body)))

/-- `OPFSFileSystem.write` (src/fs.ts 84-110): the sidecar phase runs to
completion strictly before the data phase begins. -/
def OPFSFileSystem.write (t : Node) (dirSegments : List String)
    (fileName : String) (body : Option (List Nat)) (meta : CacheEntryMeta) :
    Except Err Node :=
  match OPFSFileSystem.writeMetaPhase t dirSegments fileName meta with
  | .error e => .error e
  | .ok t3 => OPFSFileSystem.writeDataPhase t3 dirSegments fileName body

/-- The removal loop of `cleanEmptyDirs` (src/fs.ts 187-193): try removing
`segments[i]` from the parent handle collected at depth `i`, walking from
the deepest parent upward; the first failure (e.g. a non-empty directory)
stops the climb. -/
def removeLoop (segments : List String) : Node → Nat → Node
  | t, 0 =>
      match removeEntryE t [] (segments.getD 0 "") with
      | .ok t2 => t2
      | .error _ => t
  | t, j + 1 =>
      match removeEntryE t (segments.take (j + 1)) (segments.getD (j + 1) "") with
      | .ok t2 => removeLoop segments t2 j
      | .error _ => t

/-- `OPFSFileSystem.cleanEmptyDirs` (src/fs.ts 169-194): best-effort. A single
descent collects the parent handles (returning silently if any ancestor of
the deepest directory is missing), then empty directories are removed from
deepest to shallowest; failures are swallowed and stop the climb. -/
def OPFSFileSystem.cleanEmptyDirs (t : Node) (segments : List String) : Node :=
  match segments with
  | [] => t
  | _ :: _ =>
      if (dirEntriesAt t segments.dropLast).isSome then
        removeLoop segments t (segments.length - 1)
      else t

/-- `OPFSFileSystem.delete` (src/fs.ts 113-135): false when the directory
chain is missing; otherwise remove the data file (recording whether it
existed) and, independently, the sidecar — NotFound is swallowed for each,
other errors propagate; prune empty ancestors only when the data file
existed; return whether it existed. -/
def OPFSFileSystem.delete (t : Node) (dirSegments : List String)
    (fileName : String) : Except Err (Node × Bool) :=
  match navigate t dirSegments false with
  | .error e => .error e
  | .ok (t1, found) =>
      if found then
        match removeEntryE t1 dirSegments fileName with
        | .ok t2 =>
            match removeEntryE t2 dirSegments (fileName ++ META_SUFFIX) with
            | .ok t3 => .ok (OPFSFileSystem.cleanEmptyDirs t3 dirSegments, true)
            | .error .notFound =>
                .ok (OPFSFileSystem.cleanEmptyDirs t2 dirSegments, true)
            | .error e => .error e
        | .error .notFound =>
            match removeEntryE t1 dirSegments (fileName ++ META_SUFFIX) with
            | .ok t3 => .ok (t3, false)
            | .error .notFound => .ok (t1, false)
            | .error e => .error e
        | .error e => .error e
      else .ok (t1, false)

/-- `OPFSFileSystem.walk` (src/fs.ts 147-163): collect every non-sidecar
file's root-relative segment path, descending into subdirectories. The
source fans the descent out concurrently, so the result order across
siblings is unspecified; the model fixes one interleaving (the claims below
are order-insensitive). -/
def walkNode : List String → Node → List (List String)
  | _, .file _ => []
  | _, .dir [] => []
  | pre, .dir ((name, .file _) :: rest) =>
      (if endsWithMeta name then [] else [pre ++ [name]]) ++
        walkNode pre (.dir rest)
  | pre, .dir ((name, .dir sub) :: rest) =>
      walkNode (pre ++ [name]) (.dir sub) ++ walkNode pre (.dir rest)

/-- `OPFSFileSystem.list` (src/fs.ts 140-145). -/
def OPFSFileSystem.list (t : Node) : List (List String) :=
  walkNode [] t

/-- The contribution of a single directory entry to `walkNode`. -/
def walkEnt (pre : List String) (name : String) (n : Node) :
    List (List String) :=
  match n with
  | .file _ => if endsWithMeta name then [] else [pre ++ [name]]
  | .dir sub => walkNode (pre ++ [name]) (.dir sub)

/-- src/path.ts: the resolved OPFS location of a key. -/
structure ResolvedPath where
  dir : List String
  file : String
deriving DecidableEq, Repr

/-- The two URL fields the resolver consumes. -/
structure URLRecord where
  pathname : String
  search : String
deriving DecidableEq, Repr

/-- The `RequestInfo | URL` union taken by the cache operations: a plain
string, a request-like object carrying a URL string, a structured URL value,
or any other value (rejected by `resolvePath`). -/
inductive RequestInfo where
  | str (s : String)
  | request (url : String)
  | url (u : URLRecord)
  | other
deriving DecidableEq, Repr

/-- Scheme characters accepted by the URL grammar (`a-z0-9+-.`). -/
def isSchemeChar (c : Char) : Bool :=
  c.isAlphanum || c = '+' || c = '-' || c = '.'

/-- Take characters until one of `stops` is hit; returns (taken, rest). -/
def takeUntil (stops : List Char) : List Char → List Char × List Char
  | [] => ([], [])
  | c :: rest =>
      if c ∈ stops then ([], c :: rest)
      else
        let p := takeUntil stops rest
        (c :: p.1, p.2)

/-- Model of the WHATWG URL platform API (`URL.canParse` / `new URL`) for the
two fields the resolver reads: an absolute URL is a scheme followed by `:`,
an optional `//authority`, a path (empty path normalizes to `/`), `?search`
and an ignored `#fragment`. A string without a valid scheme does not parse.
External collaborator per the spec; not code of this repository. -/
def parseURL (s : String) : Option URLRecord :=
  match takeUntil [':'] s.data with
  | (_, []) => none
  | (scheme, _ :: afterColon) =>
      if scheme.isEmpty then none
      else if !(scheme.headD ' ').isAlpha then none
      else if !(scheme.all isSchemeChar) then none
      else
        let afterAuth :=
          match afterColon with
          | '/' :: '/' :: rest => (takeUntil ['/', '?', '#'] rest).2
          | other => other
        let p := takeUntil ['?', '#'] afterAuth
        let path := if p.1.isEmpty then "/" else String.mk p.1
        let search :=
          match p.2 with
          | '?' :: _ => String.mk (takeUntil ['#'] p.2).1
          | _ => ""
        some ⟨path, search⟩

/-- JavaScript `String.prototype.split("/")` on the pathname. -/
def splitSegs (s : String) : List String :=
  splitSegsAux s.data []
where
  splitSegsAux : List Char → List Char → List String
    | [], acc => [String.mk acc.reverse]
    | c :: rest, acc =>
        if c = '/' then String.mk acc.reverse :: splitSegsAux rest []
        else splitSegsAux rest (c :: acc)

/-- src/path.ts 19-26: a string that is not a parseable URL is split manually
at the first `?` into pathname and search (search keeps the `?`). -/
def splitAtQuery (s : String) : String × String :=
  match s.data.findIdx? (fun c => c = '?') with
  | none => (s, "")
  | some i => (String.mk (s.data.take i), String.mk (s.data.drop i))

/-- Step 1 of `resolvePath` (src/path.ts 10-37): extract `pathname` and
`search` from the key, or fail with a TypeError. A request-like object's
`.url` is re-parsed with `new URL` (it always holds an absolute URL). -/
def extractKey : RequestInfo → Except Err (String × String)
  | .str s =>
      match parseURL s with
      | some u => .ok (u.pathname, u.search)
      | none => .ok (splitAtQuery s)
  | .request urlStr =>
      match parseURL urlStr with
      | some u => .ok (u.pathname, u.search)
      | none => .error (.typeError "Invalid URL")
  | .url u => .ok (u.pathname, u.search)
  | .other => .error (.typeError "Expected a string, Request, or URL")

/-- `resolvePath` (src/path.ts 9-54): split the pathname on `/`, drop empty
segments, reject zero segments and `.` / `..` segments, then pop the last
segment and append the raw search to it. Pure and synchronous: it takes no
tree argument and performs no storage access. -/
def resolvePath (r : RequestInfo) : Except Err ResolvedPath :=
  match extractKey r with
  | .error e => .error e
  | .ok ps =>
      let segments := (splitSegs ps.1).filter (fun s => decide (0 < s.length))
      if hz : segments = [] then
        .error (.typeError "Path resolved to zero segments")
      else
        match segments.find? (fun s => s == "." || s == "..") with
        | some seg => .error (.typeError ("Invalid path segment: " ++ seg))
        | none => .ok ⟨segments.dropLast, segments.getLast hz ++ ps.2⟩

/-- A Response value as the facade consumes and produces it: integer status,
status text, an iterable header collection (modelled as the association list
that `Object.fromEntries` / the `headers` init produce), an optional byte
body, and the bodyUsed flag. -/
structure Response where
  status : Nat
  statusText : String
  headers : List (String × String)
  body : Option (List Nat)
  bodyUsed : Bool
deriving DecidableEq, Repr

/-- The bytes streamed by `file.stream()` for a stored data file. Data files
written by this cache always hold `Content.data`. -/
def Content.bytes : Content → List Nat
  | .data b => b
  | .json _ => []
  | .invalid => []

/-- `OPFSCache.put` (src/cache.ts 35-49): reject a consumed body, resolve the
key, capture the metadata, delegate to `write`. -/
def OPFSCache.put (t : Node) (r : RequestInfo) (resp : Response) :
    Except Err Node :=
  if resp.bodyUsed then .error (.typeError "Response body has already been consumed")
  else
    match resolvePath r with
    | .error e => .error e
    | .ok rp =>
        OPFSFileSystem.write t rp.dir rp.file resp.body
          ⟨resp.headers, resp.status, resp.statusText⟩

/-- `OPFSCache.match` (src/cache.ts 19-33; `match` is a reserved word in
Lean): resolve, read, and rebuild a Response from the stored stream plus the
sidecar metadata, defaulting status to 200, statusText to empty and headers
to empty. -/
def OPFSCache.matchReq (t : Node) (r : RequestInfo) :
    Except Err (Option Response) :=
  match resolvePath r with
  | .error e => .error e
  | .ok rp =>
      match OPFSFileSystem.readEntry t rp.dir rp.file with
      | .error e => .error e
      | .ok none => .ok none
      | .ok (some entry) =>
          .ok (some
            { status := (entry.meta.map CacheEntryMeta.status).getD 200
              statusText := (entry.meta.map CacheEntryMeta.statusText).getD ""
              headers := (entry.meta.map CacheEntryMeta.headers).getD []
              body := some entry.file.bytes
              bodyUsed := false })

/-- `OPFSCache.delete` (src/cache.ts 51-57). -/
def OPFSCache.delete (t : Node) (r : RequestInfo) : Except Err (Node × Bool) :=
  match resolvePath r with
  | .error e => .error e
  | .ok rp => OPFSFileSystem.delete t rp.dir rp.file

/-- `OPFSCache.keys` with no argument (src/cache.ts 70-71): every stored
entry as a root-relative request path. -/
def OPFSCache.keysAll (t : Node) : List String :=
  (OPFSFileSystem.list t).map (fun segs => "/" ++ String.intercalate "/" segs)

/-- Sequential `put` calls, for the listing claims. -/
def putList : Node → List (RequestInfo × Response) → Except Err Node
  | t, [] => .ok t
  | t, (r, resp) :: rest =>
      match OPFSCache.put t r resp with
      | .error e => .error e
      | .ok t1 => putList t1 rest

/-- The root-relative segment path of a resolved key. -/
def ResolvedPath.toPath (rp : ResolvedPath) : List String :=
  rp.dir ++ [rp.file]

/-- The node stored under `fileName` in the directory at `dirSegments`. -/
def dataAt (t : Node) (dirSegments : List String) (fileName : String) :
    Option Node :=
  (dirEntriesAt t dirSegments).bind (fun es => findEntry es fileName)

/-! ### Basic lemmas about directory entry lists -/

theorem findEntry_setEntry_self (es : List (String × Node)) (k : String) (v : Node) :
    findEntry (setEntry es k v) k = some v := by
  induction es with
  | nil => simp [setEntry, findEntry]
  | cons hd tl ih =>
      by_cases hk : hd.1 = k
      · simp [setEntry, hk, findEntry]
      · simpa [setEntry, hk, findEntry] using ih


theorem findEntry_setEntry_ne (es : List (String × Node)) (k name : String)
    (v : Node) (h : name ≠ k) :
    findEntry (setEntry es k v) name = findEntry es name := by
  have hk : k ≠ name := Ne.symm h
  induction es with
  | nil => simp [setEntry, findEntry, hk]
  | cons hd tl ih =>
      obtain ⟨k0, v0⟩ := hd
      by_cases h0 : k0 = k
      · subst h0
        simp [setEntry, findEntry, hk]
      · by_cases h1 : k0 = name <;> simp [setEntry, findEntry, h0, h1, h, ih]

theorem setEntry_setEntry_self (es : List (String × Node)) (k : String)
    (a b : Node) : setEntry (setEntry es k a) k b = setEntry es k b := by
  induction es with
  | nil => simp [setEntry]
  | cons hd tl ih =>
      obtain ⟨k0, v0⟩ := hd
      by_cases h0 : k0 = k <;> simp [setEntry, h0, ih]

theorem setEntry_eq_self (es : List (String × Node)) (k : String) (v : Node)
    (h : findEntry es k = some v) : setEntry es k v = es := by
  induction es with
  | nil => simp [findEntry] at h
  | cons hd tl ih =>
      obtain ⟨k0, v0⟩ := hd
      by_cases h0 : k0 = k
      · subst h0
        simp [findEntry] at h
        simp [setEntry, h]
      · simp [findEntry, h0] at h
        simp [setEntry, h0, ih h]

theorem setEntry_absent (es : List (String × Node)) (k : String) (v : Node)
    (h : findEntry es k = none) : setEntry es k v = es ++ [(k, v)] := by
  induction es with
  | nil => simp [setEntry]
  | cons hd tl ih =>
      obtain ⟨k0, v0⟩ := hd
      by_cases h0 : k0 = k
      · simp [findEntry, h0] at h
      · simp [findEntry, h0] at h
        simp [setEntry, h0, ih h]

theorem findEntry_eraseEntry_ne (es : List (String × Node)) (n m : String)
    (h : m ≠ n) : findEntry (eraseEntry es n) m = findEntry es m := by
  induction es with
  | nil => simp [eraseEntry]
  | cons hd tl ih =>
      obtain ⟨k0, v0⟩ := hd
      by_cases h0 : k0 = n
      · subst h0
        have hk : k0 ≠ m := fun hh => h hh.symm
        simp [eraseEntry, findEntry, hk]
      · by_cases h1 : k0 = m <;> simp [eraseEntry, findEntry, h0, h1, h, ih]

theorem self_ne_append_meta (f : String) : f ≠ f ++ META_SUFFIX := by
  intro h
  have hl : f.data.length = (f ++ META_SUFFIX).data.length := by rw [← h]
  rw [String.data_append] at hl
  have hm : META_SUFFIX.data.length = 5 := rfl
  rw [List.length_append, hm] at hl
  omega

theorem append_meta_ne_self (f : String) : f ++ META_SUFFIX ≠ f :=
  fun h => self_ne_append_meta f h.symm

theorem endsWithMeta_append (f : String) :
    endsWithMeta (f ++ META_SUFFIX) = true := by
  simp [endsWithMeta]

/-! ### Lemmas about `navigate`, `dirEntriesAt`, `setDirAt` -/

theorem navigate_false_eq :
    ∀ (p : List String) (t t' : Node) (b : Bool),
      navigate t p false = .ok (t', b) → t' = t := by
  intro p
  induction p with
  | nil => intro t t' b h; simp [navigate] at h; exact h.1.symm
  | cons s rest ih =>
      intro t t' b h
      cases t with
      | file c => simp [navigate] at h
      | dir es =>
          cases hf : findEntry es s with
          | none =>
              simp [navigate, hf] at h
              simp [h.1]
          | some n =>
              cases n with
              | file c => simp [navigate, hf] at h
              | dir sub =>
                  cases hrec : navigate (.dir sub) rest false with
                  | error e => simp [navigate, hf, hrec, Except.map] at h
                  | ok pr =>
                      obtain ⟨t1, b1⟩ := pr
                      have ht1 : t1 = Node.dir sub := ih (.dir sub) t1 b1 hrec
                      simp [navigate, hf, hrec, Except.map] at h
                      subst ht1
                      rw [← h.1, setEntry_eq_self es s _ hf]

theorem navigate_false_of_some :
    ∀ (p : List String) (t : Node) (es : List (String × Node)),
      dirEntriesAt t p = some es → navigate t p false = .ok (t, true) := by
  intro p
  induction p with
  | nil => intro t es h; simp [navigate]
  | cons s rest ih =>
      intro t es h
      cases t with
      | file c => simp [dirEntriesAt] at h
      | dir es0 =>
          cases hf : findEntry es0 s with
          | none => simp [dirEntriesAt, hf] at h
          | some n =>
              simp [dirEntriesAt, hf] at h
              cases n with
              | file c => cases rest <;> simp [dirEntriesAt] at h
              | dir sub =>
                  have := ih (.dir sub) es h
                  simp [navigate, hf, this, Except.map, setEntry_eq_self es0 s _ hf]

theorem navigate_true_some :
    ∀ (p : List String) (es0 : List (String × Node)) (t' : Node),
      navigate (.dir es0) p false = .ok (t', true) →
      ∃ es, dirEntriesAt (.dir es0) p = some es := by
  intro p
  induction p with
  | nil => intro es0 t' _; exact ⟨es0, rfl⟩
  | cons s rest ih =>
      intro es0 t' h
      cases hf : findEntry es0 s with
      | none => simp [navigate, hf] at h
      | some n =>
          cases n with
          | file c => simp [navigate, hf] at h
          | dir sub =>
              cases hrec : navigate (.dir sub) rest false with
              | error e => simp [navigate, hf, hrec, Except.map] at h
              | ok pr =>
                  obtain ⟨t1, b1⟩ := pr
                  simp [navigate, hf, hrec, Except.map] at h
                  obtain ⟨es, hes⟩ := ih sub t1 (by rw [hrec, h.2])
                  exact ⟨es, by simp [dirEntriesAt, hf, hes]⟩

theorem navigate_false_none :
    ∀ (p : List String) (t t' : Node),
      navigate t p false = .ok (t', false) → dirEntriesAt t p = none := by
  intro p
  induction p with
  | nil =>
      intro t t' h
      simp [navigate] at h
  | cons s rest ih =>
      intro t t' h
      cases t with
      | file c => simp [navigate] at h
      | dir es =>
          cases hf : findEntry es s with
          | none => simp [dirEntriesAt, hf]
          | some n =>
              cases n with
              | file c => simp [navigate, hf] at h
              | dir sub =>
                  cases hrec : navigate (.dir sub) rest false with
                  | error e => simp [navigate, hf, hrec, Except.map] at h
                  | ok pr =>
                      obtain ⟨t1, b1⟩ := pr
                      simp [navigate, hf, hrec, Except.map] at h
                      have := ih (.dir sub) t1 (by rw [hrec, h.2])
                      simp [dirEntriesAt, hf, this]

theorem dirEntriesAt_setDirAt_self :
    ∀ (p : List String) (t : Node) (es0 es1 : List (String × Node)),
      dirEntriesAt t p = some es0 →
      dirEntriesAt (setDirAt t p es1) p = some es1 := by
  intro p
  induction p with
  | nil =>
      intro t es0 es1 h
      cases t with
      | file c => simp [dirEntriesAt] at h
      | dir es => simp [setDirAt, dirEntriesAt]
  | cons s rest ih =>
      intro t es0 es1 h
      cases t with
      | file c => simp [dirEntriesAt] at h
      | dir es =>
          cases hf : findEntry es s with
          | none => simp [dirEntriesAt, hf] at h
          | some n =>
              simp [dirEntriesAt, hf] at h
              simp [setDirAt, hf, dirEntriesAt, findEntry_setEntry_self, ih n es0 es1 h]

/-! ### Commuting handle operations past one directory level -/

theorem setDirAt_cons (es : List (String × Node)) (s : String) (u : Node)
    (p : List String) (X : List (String × Node)) (hf : findEntry es s = some u) :
    setDirAt (.dir es) (s :: p) X = .dir (setEntry es s (setDirAt u p X)) := by
  simp [setDirAt, hf]

theorem getFileHandle_cons (es : List (String × Node)) (s : String) (u : Node)
    (p : List String) (n : String) (c : Bool) (hf : findEntry es s = some u) :
    getFileHandle (.dir es) (s :: p) n c =
      (getFileHandle u p n c).map (fun pr => (.dir (setEntry es s pr.1), pr.2)) := by
  cases hd : dirEntriesAt u p with
  | none => simp [getFileHandle, dirEntriesAt, hf, hd, Except.map]
  | some es' =>
      cases hn : findEntry es' n with
      | some nn =>
          cases nn with
          | file cc =>
              simp [getFileHandle, dirEntriesAt, hf, hd, hn, Except.map,
                setEntry_eq_self es s u hf]
          | dir dd => simp [getFileHandle, dirEntriesAt, hf, hd, hn, Except.map]
      | none =>
          cases c with
          | false => simp [getFileHandle, dirEntriesAt, hf, hd, hn, Except.map]
          | true =>
              simp [getFileHandle, dirEntriesAt, hf, hd, hn, Except.map,
                setDirAt, hf]

theorem writeFileAt_cons (es : List (String × Node)) (s : String) (u : Node)
    (p : List String) (n : String) (c : Content) (hf : findEntry es s = some u) :
    writeFileAt (.dir es) (s :: p) n c = .dir (setEntry es s (writeFileAt u p n c)) := by
  cases hd : dirEntriesAt u p with
  | none => simp [writeFileAt, dirEntriesAt, hf, hd, setEntry_eq_self es s u hf]
  | some es' => simp [writeFileAt, dirEntriesAt, hf, hd, setDirAt]

/-! ### Decomposition of a successful `write` -/

theorem write_nil (es : List (String × Node)) (f : String)
    (body : Option (List Nat)) (m : CacheEntryMeta) (t' : Node)
    (h : OPFSFileSystem.write (.dir es) [] f body m = .ok t') :
    t' = .dir (setEntry (setEntry es (f ++ META_SUFFIX) (.file (.json m))) f
        (.file (.data (bytesOf body)))) ∧
    (findEntry es (f ++ META_SUFFIX) = none ∨
      ∃ c, findEntry es (f ++ META_SUFFIX) = some (.file c)) ∧
    (findEntry es f = none ∨ ∃ c, findEntry es f = some (.file c)) := by
  have hmeta :
      ∀ t3, OPFSFileSystem.writeMetaPhase (.dir es) [] f m = .ok t3 →
        t3 = .dir (setEntry es (f ++ META_SUFFIX) (.file (.json m))) ∧
        (findEntry es (f ++ META_SUFFIX) = none ∨
          ∃ c, findEntry es (f ++ META_SUFFIX) = some (.file c)) := by
    intro t3 h3
    cases hm : findEntry es (f ++ META_SUFFIX) with
    | none =>
        simp [OPFSFileSystem.writeMetaPhase, navigate, getFileHandle,
          dirEntriesAt, hm, writeFileAt, setDirAt, findEntry_setEntry_self,
          setEntry_setEntry_self] at h3
        exact ⟨h3.symm, Or.inl rfl⟩
    | some n =>
        cases n with
        | file c =>
            simp [OPFSFileSystem.writeMetaPhase, navigate, getFileHandle,
              dirEntriesAt, hm, writeFileAt, setDirAt] at h3
            exact ⟨h3.symm, Or.inr ⟨c, rfl⟩⟩
        | dir sub =>
            simp [OPFSFileSystem.writeMetaPhase, navigate, getFileHandle,
              dirEntriesAt, hm] at h3
  rw [OPFSFileSystem.write] at h
  cases h3 : OPFSFileSystem.writeMetaPhase (.dir es) [] f m with
  | error e => rw [h3] at h; exact absurd h (by simp)
  | ok t3 =>
      rw [h3] at h
      obtain ⟨ht3, hmfact⟩ := hmeta t3 h3
      subst ht3
      cases hf : findEntry (setEntry es (f ++ META_SUFFIX) (.file (.json m))) f with
      | none =>
          simp [OPFSFileSystem.writeDataPhase, getFileHandle, dirEntriesAt, hf,
            writeFileAt, setDirAt, findEntry_setEntry_self, setEntry_setEntry_self] at h
          refine ⟨h.symm, hmfact, Or.inl ?_⟩
          rw [findEntry_setEntry_ne es (f ++ META_SUFFIX) f _
            (self_ne_append_meta f)] at hf
          exact hf
      | some n =>
          cases n with
          | file c =>
              simp [OPFSFileSystem.writeDataPhase, getFileHandle, dirEntriesAt, hf,
                writeFileAt, setDirAt] at h
              refine ⟨h.symm, hmfact, Or.inr ⟨c, ?_⟩⟩
              rw [findEntry_setEntry_ne es (f ++ META_SUFFIX) f _
                (self_ne_append_meta f)] at hf
              exact hf
          | dir sub =>
              simp [OPFSFileSystem.writeDataPhase, getFileHandle, dirEntriesAt, hf] at h

theorem writeMetaPhase_cons (es : List (String × Node)) (s : String)
    (rest : List String) (f : String) (m : CacheEntryMeta) (t3 : Node)
    (h : OPFSFileSystem.writeMetaPhase (.dir es) (s :: rest) f m = .ok t3) :
    ∃ sub sub3,
      (findEntry es s = some (.dir sub) ∨ (findEntry es s = none ∧ sub = [])) ∧
      OPFSFileSystem.writeMetaPhase (.dir sub) rest f m = .ok sub3 ∧
      t3 = .dir (setEntry es s sub3) := by
  have main :
      ∀ (sub : List (String × Node)),
        (navigate (.dir es) (s :: rest) true =
          (navigate (.dir sub) rest true).map
            (fun p => (.dir (setEntry es s p.1), p.2))) →
        ∃ sub3, OPFSFileSystem.writeMetaPhase (.dir sub) rest f m = .ok sub3 ∧
          t3 = .dir (setEntry es s sub3) := by
    intro sub hnaveq
    rw [OPFSFileSystem.writeMetaPhase, hnaveq] at h
    cases hnav : navigate (.dir sub) rest true with
    | error e => rw [hnav] at h; exact absurd h (by simp [Except.map])
    | ok pr =>
        obtain ⟨t1s, b1⟩ := pr
        rw [hnav] at h
        cases b1 with
        | false => exact absurd h (by simp [Except.map])
        | true =>
            simp only [Except.map, if_true] at h
            rw [getFileHandle_cons (setEntry es s t1s) s t1s rest
              (f ++ META_SUFFIX) true (findEntry_setEntry_self es s t1s)] at h
            cases hgf : getFileHandle t1s rest (f ++ META_SUFFIX) true with
            | error e => rw [hgf] at h; exact absurd h (by simp [Except.map])
            | ok pr2 =>
                obtain ⟨t2s, c2⟩ := pr2
                rw [hgf] at h
                simp only [Except.map] at h
                rw [setEntry_setEntry_self] at h
                rw [writeFileAt_cons (setEntry es s t2s) s t2s rest
                  (f ++ META_SUFFIX) (.json m) (findEntry_setEntry_self es s t2s),
                  setEntry_setEntry_self] at h
                refine ⟨writeFileAt t2s rest (f ++ META_SUFFIX) (.json m), ?_, ?_⟩
                · rw [OPFSFileSystem.writeMetaPhase, hnav]
                  simp [hgf]
                · simpa using h.symm
  cases hf : findEntry es s with
  | some n =>
      cases n with
      | file c =>
          rw [OPFSFileSystem.writeMetaPhase] at h
          simp [navigate, hf] at h
      | dir sub =>
          obtain ⟨sub3, h1, h2⟩ := main sub (by simp [navigate, hf])
          exact ⟨sub, sub3, Or.inl rfl, h1, h2⟩
  | none =>
      obtain ⟨sub3, h1, h2⟩ := main [] (by simp [navigate, hf])
      exact ⟨[], sub3, Or.inr ⟨rfl, rfl⟩, h1, h2⟩

theorem writeDataPhase_cons (es : List (String × Node)) (s : String) (u : Node)
    (rest : List String) (f : String) (body : Option (List Nat))
    (hf : findEntry es s = some u) :
    OPFSFileSystem.writeDataPhase (.dir es) (s :: rest) f body =
      (OPFSFileSystem.writeDataPhase u rest f body).map
        (fun t' => .dir (setEntry es s t')) := by
  rw [OPFSFileSystem.writeDataPhase,
    getFileHandle_cons es s u rest f true hf]
  cases hgf : getFileHandle u rest f true with
  | error e => simp [OPFSFileSystem.writeDataPhase, hgf, Except.map]
  | ok pr =>
      obtain ⟨t4s, c4⟩ := pr
      simp only [Except.map]
      rw [writeFileAt_cons (setEntry es s t4s) s t4s rest f
        (.data (bytesOf body)) (findEntry_setEntry_self es s t4s),
        setEntry_setEntry_self]
      simp [OPFSFileSystem.writeDataPhase, hgf, Except.map]

theorem write_cons (es : List (String × Node)) (s : String)
    (rest : List String) (f : String) (body : Option (List Nat))
    (m : CacheEntryMeta) (t' : Node)
    (h : OPFSFileSystem.write (.dir es) (s :: rest) f body m = .ok t') :
    ∃ sub sub',
      (findEntry es s = some (.dir sub) ∨ (findEntry es s = none ∧ sub = [])) ∧
      OPFSFileSystem.write (.dir sub) rest f body m = .ok sub' ∧
      t' = .dir (setEntry es s sub') := by
  rw [OPFSFileSystem.write] at h
  cases h3 : OPFSFileSystem.writeMetaPhase (.dir es) (s :: rest) f m with
  | error e => rw [h3] at h; exact absurd h (by simp)
  | ok t3 =>
      rw [h3] at h
      obtain ⟨sub, sub3, hcase, hsub3, ht3⟩ := writeMetaPhase_cons es s rest f m t3 h3
      subst ht3
      simp only [] at h
      rw [writeDataPhase_cons (setEntry es s sub3) s sub3 rest f body
        (findEntry_setEntry_self es s sub3)] at h
      cases hdp : OPFSFileSystem.writeDataPhase sub3 rest f body with
      | error e => rw [hdp] at h; exact absurd h (by simp [Except.map])
      | ok sub' =>
          rw [hdp] at h
          simp only [Except.map, Except.ok.injEq] at h
          refine ⟨sub, sub', hcase, ?_, ?_⟩
          · rw [OPFSFileSystem.write, hsub3]
            exact hdp
          · rw [← h, setEntry_setEntry_self]

theorem write_ok_dir :
    ∀ (p : List String) (es : List (String × Node)) (f : String)
      (body : Option (List Nat)) (m : CacheEntryMeta) (t' : Node),
      OPFSFileSystem.write (.dir es) p f body m = .ok t' →
      ∃ es', t' = .dir es' := by
  intro p
  cases p with
  | nil =>
      intro es f body m t' h
      exact ⟨_, (write_nil es f body m t' h).1⟩
  | cons s rest =>
      intro es f body m t' h
      obtain ⟨sub, sub', _, _, ht⟩ := write_cons es s rest f body m t' h
      exact ⟨_, ht⟩

theorem write_ok_files :
    ∀ (p : List String) (es : List (String × Node)) (f : String)
      (body : Option (List Nat)) (m : CacheEntryMeta) (t' : Node),
      OPFSFileSystem.write (.dir es) p f body m = .ok t' →
      ∃ es', dirEntriesAt t' p = some es' ∧
        findEntry es' f = some (.file (.data (bytesOf body))) ∧
        findEntry es' (f ++ META_SUFFIX) = some (.file (.json m)) := by
  intro p
  induction p with
  | nil =>
      intro es f body m t' h
      obtain ⟨ht, _, _⟩ := write_nil es f body m t' h
      subst ht
      refine ⟨_, rfl, ?_, ?_⟩
      · exact findEntry_setEntry_self _ f _
      · rw [findEntry_setEntry_ne _ f (f ++ META_SUFFIX) _ (append_meta_ne_self f)]
        exact findEntry_setEntry_self _ (f ++ META_SUFFIX) _
  | cons s rest ih =>
      intro es f body m t' h
      obtain ⟨sub, sub', _, hw, ht⟩ := write_cons es s rest f body m t' h
      subst ht
      obtain ⟨es', h1, h2, h3⟩ := ih sub f body m sub' hw
      exact ⟨es', by simp [dirEntriesAt, findEntry_setEntry_self, h1], h2, h3⟩

/-! ### Lemmas about the recursive listing `walkNode` -/

theorem walk_cons (pre : List String) (k : String) (v : Node)
    (rest : List (String × Node)) :
    walkNode pre (.dir ((k, v) :: rest)) =
      walkEnt pre k v ++ walkNode pre (.dir rest) := by
  cases v with
  | file c => simp [walkNode, walkEnt]
  | dir sub => simp [walkNode, walkEnt]

theorem walk_append (pre : List String) (es1 es2 : List (String × Node)) :
    walkNode pre (.dir (es1 ++ es2)) =
      walkNode pre (.dir es1) ++ walkNode pre (.dir es2) := by
  induction es1 with
  | nil => simp [walkNode]
  | cons hd tl ih =>
      obtain ⟨k, v⟩ := hd
      rw [List.cons_append, walk_cons, walk_cons, ih, List.append_assoc]

theorem walk_setEntry_absent (pre : List String) (es : List (String × Node))
    (k : String) (v : Node) (hf : findEntry es k = none) :
    walkNode pre (.dir (setEntry es k v)) =
      walkNode pre (.dir es) ++ walkEnt pre k v := by
  rw [setEntry_absent es k v hf, walk_append, walk_cons]
  simp [walkNode]

theorem walk_setEntry_found (pre : List String) (es : List (String × Node))
    (k : String) (v v0 : Node) (hf : findEntry es k = some v0) :
    List.Perm (walkNode pre (.dir (setEntry es k v)) ++ walkEnt pre k v0)
      (walkEnt pre k v ++ walkNode pre (.dir es)) := by
  induction es with
  | nil => simp [findEntry] at hf
  | cons hd tl ih =>
      obtain ⟨k0, w⟩ := hd
      by_cases h0 : k0 = k
      · subst h0
        simp [findEntry] at hf
        subst hf
        have hset : setEntry ((k0, w) :: tl) k0 v = (k0, v) :: tl := by
          simp [setEntry]
        rw [hset, walk_cons, walk_cons, List.append_assoc]
        exact (@List.perm_append_comm _ (walkNode pre (.dir tl))
          (walkEnt pre k0 w)).append_left (walkEnt pre k0 v)
      · simp [findEntry, h0] at hf
        have ihh := ih hf
        have hset : setEntry ((k0, w) :: tl) k v = (k0, w) :: setEntry tl k v := by
          simp [setEntry, h0]
        rw [hset, walk_cons, walk_cons, List.append_assoc]
        calc
          List.Perm (walkEnt pre k0 w ++
              (walkNode pre (.dir (setEntry tl k v)) ++ walkEnt pre k v0))
            (walkEnt pre k0 w ++ (walkEnt pre k v ++ walkNode pre (.dir tl))) :=
            ihh.append_left _
          _ = (walkEnt pre k0 w ++ walkEnt pre k v) ++ walkNode pre (.dir tl) := by
            rw [List.append_assoc]
          _ ~ (walkEnt pre k v ++ walkEnt pre k0 w) ++ walkNode pre (.dir tl) :=
            (List.perm_append_comm).append_right _
          _ = walkEnt pre k v ++ (walkEnt pre k0 w ++ walkNode pre (.dir tl)) := by
            rw [List.append_assoc]

theorem walkEnt_mem_of_find (pre : List String) (es : List (String × Node))
    (k : String) (v : Node) (hf : findEntry es k = some v)
    (x : List String) (hx : x ∈ walkEnt pre k v) :
    x ∈ walkNode pre (.dir es) := by
  induction es with
  | nil => simp [findEntry] at hf
  | cons hd tl ih =>
      obtain ⟨k0, w⟩ := hd
      by_cases h0 : k0 = k
      · subst h0
        simp [findEntry] at hf
        subst hf
        rw [walk_cons]
        exact List.mem_append_left _ hx
      · simp [findEntry, h0] at hf
        rw [walk_cons]
        exact List.mem_append_right _ (ih hf)

/-! ### Effect of `write` on the listing -/

theorem dataAt_cons (es : List (String × Node)) (s : String) (u : Node)
    (rest : List String) (f : String) (hf : findEntry es s = some u) :
    dataAt (.dir es) (s :: rest) f = dataAt u rest f := by
  simp [dataAt, dirEntriesAt, hf]

theorem dataAt_fresh (rest : List String) (f : String) :
    dataAt (.dir []) rest f = none := by
  cases rest <;> simp [dataAt, dirEntriesAt, findEntry]

theorem walk_write :
    ∀ (p : List String) (es : List (String × Node)) (f : String)
      (body : Option (List Nat)) (m : CacheEntryMeta) (t' : Node)
      (pre : List String),
      OPFSFileSystem.write (.dir es) p f body m = .ok t' →
      endsWithMeta f = false →
      (∀ c, dataAt (.dir es) p f ≠ some (.file c)) →
      List.Perm (walkNode pre t') ((pre ++ p ++ [f]) :: walkNode pre (.dir es)) := by
  intro p
  induction p with
  | nil =>
      intro es f body m t' pre h hsuf hnof
      obtain ⟨ht, hmfact, hffact⟩ := write_nil es f body m t' h
      subst ht
      have hfnone : findEntry es f = none := by
        cases hffact with
        | inl hn => exact hn
        | inr hc =>
            obtain ⟨c, hc⟩ := hc
            exact absurd (by simpa [dataAt, dirEntriesAt] using hc) (hnof c)
      have h1 : List.Perm
          (walkNode pre (.dir (setEntry es (f ++ META_SUFFIX) (.file (.json m)))))
          (walkNode pre (.dir es)) := by
        cases hmfact with
        | inl hn =>
            rw [walk_setEntry_absent pre es _ _ hn]
            simp [walkEnt, endsWithMeta_append]
        | inr hc =>
            obtain ⟨c, hc⟩ := hc
            have := walk_setEntry_found pre es (f ++ META_SUFFIX)
              (.file (.json m)) (.file c) hc
            simpa [walkEnt, endsWithMeta_append] using this
      have hfnone1 : findEntry (setEntry es (f ++ META_SUFFIX) (.file (.json m))) f
          = none := by
        rw [findEntry_setEntry_ne es _ f _ (self_ne_append_meta f)]
        exact hfnone
      rw [walk_setEntry_absent pre _ f _ hfnone1]
      simp only [walkEnt, hsuf, Bool.false_eq_true, if_false]
      calc
        List.Perm
          (walkNode pre (.dir (setEntry es (f ++ META_SUFFIX) (.file (.json m))))
            ++ [pre ++ [f]])
          (walkNode pre (.dir es) ++ [pre ++ [f]]) := h1.append_right _
        _ ~ [pre ++ [f]] ++ walkNode pre (.dir es) := List.perm_append_comm
        _ = (pre ++ [] ++ [f]) :: walkNode pre (.dir es) := by simp
  | cons s rest ih =>
      intro es f body m t' pre h hsuf hnof
      obtain ⟨sub, sub', hcase, hw, ht⟩ := write_cons es s rest f body m t' h
      subst ht
      obtain ⟨es'', hsub'⟩ := write_ok_dir rest sub f body m sub' hw
      cases hcase with
      | inl hf =>
          have hnof' : ∀ c, dataAt (.dir sub) rest f ≠ some (.file c) := by
            intro c hc
            exact hnof c (by rw [dataAt_cons es s _ rest f hf]; exact hc)
          have ihh := ih sub f body m sub' (pre ++ [s]) hw hsuf hnof'
          have hrepl := walk_setEntry_found pre es s sub' (.dir sub) hf
          have hstep : List.Perm
              (walkNode pre (.dir (setEntry es s sub')) ++
                walkNode (pre ++ [s]) (.dir sub))
              (((pre ++ [s]) ++ rest ++ [f]) :: walkNode pre (.dir es) ++
                walkNode (pre ++ [s]) (.dir sub)) := by
            calc
              List.Perm
                (walkNode pre (.dir (setEntry es s sub')) ++
                  walkNode (pre ++ [s]) (.dir sub))
                (walkEnt pre s sub' ++ walkNode pre (.dir es)) := by
                  simpa [walkEnt] using hrepl
              _ ~ ((((pre ++ [s]) ++ rest ++ [f]) :: walkNode (pre ++ [s]) (.dir sub))
                    ++ walkNode pre (.dir es)) := by
                  refine List.Perm.append_right _ ?_
                  rw [hsub']
                  rw [hsub'] at ihh
                  exact ihh
              _ = ((pre ++ [s]) ++ rest ++ [f]) ::
                    (walkNode (pre ++ [s]) (.dir sub) ++ walkNode pre (.dir es)) := by
                  simp
              _ ~ ((pre ++ [s]) ++ rest ++ [f]) ::
                    (walkNode pre (.dir es) ++ walkNode (pre ++ [s]) (.dir sub)) :=
                  List.Perm.cons _ List.perm_append_comm
              _ = (((pre ++ [s]) ++ rest ++ [f]) :: walkNode pre (.dir es)) ++
                    walkNode (pre ++ [s]) (.dir sub) := by simp
          have := (List.perm_append_right_iff _).mp hstep
          simpa [List.append_assoc] using this
      | inr hf =>
          obtain ⟨hfn, hsub⟩ := hf
          subst hsub
          have ihh := ih [] f body m sub' (pre ++ [s]) hw hsuf
            (by intro c hc; rw [dataAt_fresh rest f] at hc; exact absurd hc (by simp))
          rw [walk_setEntry_absent pre es s sub' hfn]
          have : List.Perm (walkEnt pre s sub')
              [(pre ++ [s]) ++ rest ++ [f]] := by
            rw [hsub'] at ihh ⊢
            simpa [walkEnt, walkNode] using ihh
          calc
            List.Perm (walkNode pre (.dir es) ++ walkEnt pre s sub')
              (walkNode pre (.dir es) ++ [(pre ++ [s]) ++ rest ++ [f]]) :=
              this.append_left _
            _ ~ [(pre ++ [s]) ++ rest ++ [f]] ++ walkNode pre (.dir es) :=
              List.perm_append_comm
            _ = (pre ++ (s :: rest) ++ [f]) :: walkNode pre (.dir es) := by simp

theorem dataAt_cons_none (es : List (String × Node)) (s : String)
    (rest : List String) (f : String) (hf : findEntry es s = none) :
    dataAt (.dir es) (s :: rest) f = none := by
  simp [dataAt, dirEntriesAt, hf]

theorem walkEnt_file_eq (pre : List String) (f : String) (c c' : Content) :
    walkEnt pre f (.file c) = walkEnt pre f (.file c') := by
  simp [walkEnt]

theorem walk_write_present :
    ∀ (p : List String) (es : List (String × Node)) (f : String)
      (body : Option (List Nat)) (m : CacheEntryMeta) (t' : Node)
      (pre : List String),
      OPFSFileSystem.write (.dir es) p f body m = .ok t' →
      (∃ c, dataAt (.dir es) p f = some (.file c)) →
      List.Perm (walkNode pre t') (walkNode pre (.dir es)) := by
  intro p
  induction p with
  | nil =>
      intro es f body m t' pre h hdata
      obtain ⟨c, hc⟩ := hdata
      have hcf : findEntry es f = some (.file c) := by
        simpa [dataAt, dirEntriesAt] using hc
      obtain ⟨ht, hmfact, _⟩ := write_nil es f body m t' h
      subst ht
      have h1 : List.Perm
          (walkNode pre (.dir (setEntry es (f ++ META_SUFFIX) (.file (.json m)))))
          (walkNode pre (.dir es)) := by
        cases hmfact with
        | inl hn =>
            rw [walk_setEntry_absent pre es _ _ hn]
            simp [walkEnt, endsWithMeta_append]
        | inr hcm =>
            obtain ⟨cm, hcm⟩ := hcm
            have := walk_setEntry_found pre es (f ++ META_SUFFIX)
              (.file (.json m)) (.file cm) hcm
            simpa [walkEnt, endsWithMeta_append] using this
      have hcf1 : findEntry (setEntry es (f ++ META_SUFFIX) (.file (.json m))) f
          = some (.file c) := by
        rw [findEntry_setEntry_ne es _ f _ (self_ne_append_meta f)]
        exact hcf
      have hrepl := walk_setEntry_found pre
        (setEntry es (f ++ META_SUFFIX) (.file (.json m))) f
        (.file (.data (bytesOf body))) (.file c) hcf1
      rw [walkEnt_file_eq pre f c (Content.data (bytesOf body))] at hrepl
      have hcancel := (List.perm_append_right_iff (walkEnt pre f
        (.file (.data (bytesOf body))))).mp
        (hrepl.trans List.perm_append_comm)
      exact hcancel.trans h1
  | cons s rest ih =>
      intro es f body m t' pre h hdata
      obtain ⟨sub, sub', hcase, hw, ht⟩ := write_cons es s rest f body m t' h
      subst ht
      obtain ⟨es'', hsub'⟩ := write_ok_dir rest sub f body m sub' hw
      cases hcase with
      | inl hf =>
          have hdata' : ∃ c, dataAt (.dir sub) rest f = some (.file c) := by
            obtain ⟨c, hc⟩ := hdata
            exact ⟨c, by rw [← dataAt_cons es s _ rest f hf]; exact hc⟩
          have ihh := ih sub f body m sub' (pre ++ [s]) hw hdata'
          have hrepl := walk_setEntry_found pre es s sub' (.dir sub) hf
          have hent : List.Perm (walkEnt pre s sub') (walkEnt pre s (.dir sub)) := by
            rw [hsub'] at ihh ⊢
            simpa [walkEnt] using ihh
          have hstep : List.Perm
              (walkNode pre (.dir (setEntry es s sub')) ++ walkEnt pre s (.dir sub))
              (walkNode pre (.dir es) ++ walkEnt pre s (.dir sub)) :=
            (hrepl.trans (hent.append_right _)).trans List.perm_append_comm
          exact (List.perm_append_right_iff _).mp hstep
      | inr hf =>
          obtain ⟨c, hc⟩ := hdata
          rw [dataAt_cons_none es s rest f hf.1] at hc
          exact absurd hc (by simp)

theorem dataAt_mem_walk :
    ∀ (p : List String) (t : Node) (f : String) (c : Content)
      (pre : List String),
      dataAt t p f = some (.file c) →
      endsWithMeta f = false →
      (pre ++ p ++ [f]) ∈ walkNode pre t := by
  intro p
  induction p with
  | nil =>
      intro t f c pre hd hsuf
      cases t with
      | file cc => simp [dataAt, dirEntriesAt] at hd
      | dir es =>
          have hcf : findEntry es f = some (.file c) := by
            simpa [dataAt, dirEntriesAt] using hd
          have : (pre ++ [f]) ∈ walkEnt pre f (.file c) := by
            simp [walkEnt, hsuf]
          simpa using walkEnt_mem_of_find pre es f (.file c) hcf _ this
  | cons s rest ih =>
      intro t f c pre hd hsuf
      cases t with
      | file cc => simp [dataAt, dirEntriesAt] at hd
      | dir es =>
          cases hf : findEntry es s with
          | none => rw [dataAt_cons_none es s rest f hf] at hd; exact absurd hd (by simp)
          | some u =>
              rw [dataAt_cons es s u rest f hf] at hd
              cases u with
              | file cc =>
                  cases rest <;> simp [dataAt, dirEntriesAt] at hd
              | dir sub =>
                  have hmem := ih (.dir sub) f c (pre ++ [s]) hd hsuf
                  have : ((pre ++ [s]) ++ rest ++ [f]) ∈ walkEnt pre s (.dir sub) := by
                    simpa [walkEnt] using hmem
                  have hout := walkEnt_mem_of_find pre es s (.dir sub) hf _ this
                  simpa [List.append_assoc] using hout

/-! ### Evaluating `exists` / `readEntry` from the state of the tree -/

theorem exists_of_file (t : Node) (p : List String) (f : String)
    (es : List (String × Node)) (c : Content)
    (hdir : dirEntriesAt t p = some es)
    (hcf : findEntry es f = some (.file c)) :
    OPFSFileSystem.exists t p f = .ok true := by
  rw [OPFSFileSystem.exists, navigate_false_of_some p t es hdir]
  simp [getFileHandle, hdir, hcf]

theorem exists_of_absent (t : Node) (p : List String) (f : String)
    (es : List (String × Node))
    (hdir : dirEntriesAt t p = some es)
    (hcf : findEntry es f = none) :
    OPFSFileSystem.exists t p f = .ok false := by
  rw [OPFSFileSystem.exists, navigate_false_of_some p t es hdir]
  simp [getFileHandle, hdir, hcf]

theorem exists_ok_false_elim (t : Node) (p : List String) (f : String)
    (h : OPFSFileSystem.exists t p f = .ok false) :
    dirEntriesAt t p = none ∨
      ∃ es, dirEntriesAt t p = some es ∧ findEntry es f = none := by
  rw [OPFSFileSystem.exists] at h
  cases hnav : navigate t p false with
  | error e => rw [hnav] at h; exact absurd h (by simp)
  | ok pr =>
      obtain ⟨t1, b1⟩ := pr
      rw [hnav] at h
      have ht1 : t1 = t := navigate_false_eq p t t1 b1 hnav
      subst ht1
      cases b1 with
      | false => exact Or.inl (navigate_false_none p t1 t1 hnav)
      | true =>
          simp only [if_true] at h
          cases hdir : dirEntriesAt t1 p with
          | none => simp [getFileHandle, hdir] at h
          | some es =>
              cases hcf : findEntry es f with
              | none => exact Or.inr ⟨es, rfl, hcf⟩
              | some n =>
                  cases n with
                  | file c => simp [getFileHandle, hdir, hcf] at h
                  | dir sub => simp [getFileHandle, hdir, hcf] at h

theorem readEntry_of_absent (t : Node) (p : List String) (f : String)
    (es : List (String × Node))
    (hdir : dirEntriesAt t p = some es)
    (hcf : findEntry es f = none) :
    OPFSFileSystem.readEntry t p f = .ok none := by
  rw [OPFSFileSystem.readEntry, navigate_false_of_some p t es hdir]
  simp [getFileHandle, hdir, hcf]

theorem readEntry_of_data_no_meta (t : Node) (p : List String) (f : String)
    (es : List (String × Node)) (dc : Content)
    (hdir : dirEntriesAt t p = some es)
    (hcf : findEntry es f = some (.file dc))
    (hm : findEntry es (f ++ META_SUFFIX) = none) :
    OPFSFileSystem.readEntry t p f = .ok (some ⟨dc, none⟩) := by
  rw [OPFSFileSystem.readEntry, navigate_false_of_some p t es hdir]
  simp [getFileHandle, hdir, hcf, hm]

theorem readEntry_of_data_meta (t : Node) (p : List String) (f : String)
    (es : List (String × Node)) (dc mc : Content)
    (hdir : dirEntriesAt t p = some es)
    (hcf : findEntry es f = some (.file dc))
    (hm : findEntry es (f ++ META_SUFFIX) = some (.file mc)) :
    OPFSFileSystem.readEntry t p f =
      match JSONparse mc with
      | .ok m => .ok (some ⟨dc, some m⟩)
      | .error e => .error e := by
  rw [OPFSFileSystem.readEntry, navigate_false_of_some p t es hdir]
  cases hj : JSONparse mc with
  | ok m => simp [getFileHandle, hdir, hcf, hm, hj]
  | error e =>
      have : e = Err.parseError := by
        cases mc <;> simp [JSONparse] at hj <;> simp [hj]
      subst this
      simp [getFileHandle, hdir, hcf, hm, hj]

/-! ### The sidecar phase of `write` does not create the data file -/

theorem exists_cons (es : List (String × Node)) (s : String)
    (sub : List (String × Node)) (rest : List String) (f : String)
    (hf : findEntry es s = some (.dir sub)) :
    OPFSFileSystem.exists (.dir es) (s :: rest) f =
      OPFSFileSystem.exists (.dir sub) rest f := by
  rw [OPFSFileSystem.exists, OPFSFileSystem.exists]
  cases hnav : navigate (.dir sub) rest false with
  | error e => simp [navigate, hf, hnav, Except.map]
  | ok pr =>
      obtain ⟨t1, b1⟩ := pr
      have ht1 : t1 = .dir sub := navigate_false_eq rest _ t1 b1 hnav
      subst ht1
      cases b1 with
      | false => simp [navigate, hf, hnav, Except.map]
      | true =>
          have hgf := getFileHandle_cons es s (.dir sub) rest f false hf
          cases hg : getFileHandle (.dir sub) rest f false with
          | ok pr2 =>
              simp [navigate, hf, hnav, Except.map,
                setEntry_eq_self es s _ hf, hgf, hg]
          | error e =>
              cases e <;>
                simp [navigate, hf, hnav, Except.map,
                  setEntry_eq_self es s _ hf, hgf, hg]

theorem exists_fresh (rest : List String) (f : String) :
    OPFSFileSystem.exists (.dir []) rest f = .ok false := by
  cases rest with
  | nil =>
      simp [OPFSFileSystem.exists, navigate, getFileHandle, dirEntriesAt, findEntry]
  | cons s rest' =>
      simp [OPFSFileSystem.exists, navigate, findEntry]

theorem writeMetaPhase_nil (es : List (String × Node)) (f : String)
    (m : CacheEntryMeta) (t3 : Node)
    (h : OPFSFileSystem.writeMetaPhase (.dir es) [] f m = .ok t3) :
    t3 = .dir (setEntry es (f ++ META_SUFFIX) (.file (.json m))) := by
  cases hm : findEntry es (f ++ META_SUFFIX) with
  | none =>
      simp [OPFSFileSystem.writeMetaPhase, navigate, getFileHandle,
        dirEntriesAt, hm, writeFileAt, setDirAt, findEntry_setEntry_self,
        setEntry_setEntry_self] at h
      exact h.symm
  | some n =>
      cases n with
      | file c =>
          simp [OPFSFileSystem.writeMetaPhase, navigate, getFileHandle,
            dirEntriesAt, hm, writeFileAt, setDirAt] at h
          exact h.symm
      | dir sub =>
          simp [OPFSFileSystem.writeMetaPhase, navigate, getFileHandle,
            dirEntriesAt, hm] at h

theorem writeMetaPhase_preserves_absent :
    ∀ (p : List String) (es : List (String × Node)) (f : String)
      (m : CacheEntryMeta) (t3 : Node),
      OPFSFileSystem.writeMetaPhase (.dir es) p f m = .ok t3 →
      OPFSFileSystem.exists (.dir es) p f = .ok false →
      ∃ es3, dirEntriesAt t3 p = some es3 ∧ findEntry es3 f = none := by
  intro p
  induction p with
  | nil =>
      intro es f m t3 h hfresh
      have ht3 := writeMetaPhase_nil es f m t3 h
      subst ht3
      have hnone : findEntry es f = none := by
        cases exists_ok_false_elim (.dir es) [] f hfresh with
        | inl hn => simp [dirEntriesAt] at hn
        | inr hs =>
            obtain ⟨es0, hes0, hn⟩ := hs
            simp [dirEntriesAt] at hes0
            rw [← hes0] at hn
            exact hn
      refine ⟨_, rfl, ?_⟩
      rw [findEntry_setEntry_ne es _ f _ (self_ne_append_meta f)]
      exact hnone
  | cons s rest ih =>
      intro es f m t3 h hfresh
      obtain ⟨sub, sub3, hcase, hsub3, ht3⟩ := writeMetaPhase_cons es s rest f m t3 h
      subst ht3
      have hfresh' : OPFSFileSystem.exists (.dir sub) rest f = .ok false := by
        cases hcase with
        | inl hf => rw [← exists_cons es s sub rest f hf]; exact hfresh
        | inr hf => rw [hf.2]; exact exists_fresh rest f
      obtain ⟨es3, h1, h2⟩ := ih sub f m sub3 hsub3 hfresh'
      exact ⟨es3, by simp [dirEntriesAt, findEntry_setEntry_self, h1], h2⟩

/-! ### From `put` to `match` -/

theorem write_file_not_ok (c : Content) (p : List String) (f : String)
    (body : Option (List Nat)) (m : CacheEntryMeta) (t' : Node) :
    OPFSFileSystem.write (.file c) p f body m ≠ .ok t' := by
  cases p <;>
    simp [OPFSFileSystem.write, OPFSFileSystem.writeMetaPhase, navigate,
      getFileHandle, dirEntriesAt]

theorem writeMetaPhase_file_not_ok (c : Content) (p : List String) (f : String)
    (m : CacheEntryMeta) (t3 : Node) :
    OPFSFileSystem.writeMetaPhase (.file c) p f m ≠ .ok t3 := by
  cases p <;>
    simp [OPFSFileSystem.writeMetaPhase, navigate, getFileHandle, dirEntriesAt]

theorem put_ok_elim (t : Node) (r : RequestInfo) (resp : Response) (t' : Node)
    (h : OPFSCache.put t r resp = .ok t') :
    resp.bodyUsed = false ∧
    ∃ rp, resolvePath r = .ok rp ∧
      OPFSFileSystem.write t rp.dir rp.file resp.body
        ⟨resp.headers, resp.status, resp.statusText⟩ = .ok t' := by
  rw [OPFSCache.put] at h
  by_cases hbu : resp.bodyUsed
  · simp [hbu] at h
  · refine ⟨by simpa using hbu, ?_⟩
    simp only [hbu, if_false] at h
    cases hres : resolvePath r with
    | error e => rw [hres] at h; exact absurd h (by simp)
    | ok rp => rw [hres] at h; exact ⟨rp, rfl, h⟩

theorem put_then_match (t : Node) (r : RequestInfo) (resp : Response) (t' : Node)
    (h : OPFSCache.put t r resp = .ok t') :
    OPFSCache.matchReq t' r = .ok (some
      { status := resp.status, statusText := resp.statusText,
        headers := resp.headers, body := some (bytesOf resp.body),
        bodyUsed := false }) := by
  obtain ⟨hbu, rp, hres, hw⟩ := put_ok_elim t r resp t' h
  cases t with
  | file c => exact absurd hw (write_file_not_ok _ _ _ _ _ _)
  | dir es =>
      obtain ⟨es', hdir, hdata, hmeta⟩ :=
        write_ok_files rp.dir es rp.file resp.body _ t' hw
      have hread := readEntry_of_data_meta t' rp.dir rp.file es' _ _ hdir hdata hmeta
      simp only [JSONparse] at hread
      simp [OPFSCache.matchReq, hres, hread, Content.bytes]

/-! ### Claim theorems -/

/-- C1: for every key that resolves successfully and every response body `B`
with metadata (status, statusText, headers), `put` followed by `match` on the
same cache returns a response whose body bytes equal `B` and whose status,
statusText and headers equal those supplied at put time. -/
theorem put_match_roundtrip (t : Node) (r : RequestInfo) (resp : Response)
    (B : List Nat) (hB : resp.body = some B) (t' : Node)
    (hput : OPFSCache.put t r resp = .ok t') :
    OPFSCache.matchReq t' r = .ok (some
      { status := resp.status, statusText := resp.statusText,
        headers := resp.headers, body := some B, bodyUsed := false }) := by
  have := put_then_match t r resp t' hput
  rwa [hB] at this

theorem put_match_roundtrip_witness :
    OPFSCache.put (.dir []) (.str "https://h/a")
        ⟨200, "OK", [("k", "v")], some [1, 2], false⟩ =
      .ok (.dir [("a" ++ META_SUFFIX, .file (.json ⟨[("k", "v")], 200, "OK"⟩)),
        ("a", .file (.data [1, 2]))]) ∧
    OPFSCache.matchReq
        (.dir [("a" ++ META_SUFFIX, .file (.json ⟨[("k", "v")], 200, "OK"⟩)),
          ("a", .file (.data [1, 2]))]) (.str "https://h/a") =
      .ok (some ⟨200, "OK", [("k", "v")], some [1, 2], false⟩) :=
  ⟨rfl, put_match_roundtrip (.dir []) (.str "https://h/a")
    ⟨200, "OK", [("k", "v")], some [1, 2], false⟩ [1, 2] rfl
    (.dir [("a" ++ META_SUFFIX, .file (.json ⟨[("k", "v")], 200, "OK"⟩)),
      ("a", .file (.data [1, 2]))]) rfl⟩

/-- C7: a stored entry whose data file exists without a sidecar yields a
successful `match` with status 200, empty statusText and empty headers; an
existing sidecar whose content fails to parse propagates the error to the
caller instead of being treated as absence. -/
theorem sidecar_absent_and_corrupt :
    (∀ (t : Node) (r : RequestInfo) (dirp : List String) (f : String)
        (es : List (String × Node)) (b : List Nat),
        resolvePath r = .ok ⟨dirp, f⟩ →
        dirEntriesAt t dirp = some es →
        findEntry es f = some (.file (.data b)) →
        findEntry es (f ++ META_SUFFIX) = none →
        OPFSCache.matchReq t r = .ok (some ⟨200, "", [], some b, false⟩)) ∧
    (∀ (t : Node) (r : RequestInfo) (dirp : List String) (f : String)
        (es : List (String × Node)) (dc mc : Content),
        resolvePath r = .ok ⟨dirp, f⟩ →
        dirEntriesAt t dirp = some es →
        findEntry es f = some (.file dc) →
        findEntry es (f ++ META_SUFFIX) = some (.file mc) →
        JSONparse mc = .error .parseError →
        OPFSFileSystem.readEntry t dirp f = .error .parseError ∧
        OPFSCache.matchReq t r = .error .parseError) := by
  constructor
  · intro t r dirp f es b hres hdir hdata hm
    have hread := readEntry_of_data_no_meta t dirp f es _ hdir hdata hm
    simp [OPFSCache.matchReq, hres, hread, Content.bytes]
  · intro t r dirp f es dc mc hres hdir hdata hm hj
    have hread := readEntry_of_data_meta t dirp f es dc mc hdir hdata hm
    rw [hj] at hread
    exact ⟨hread, by simp [OPFSCache.matchReq, hres, hread]⟩

theorem sidecar_absent_and_corrupt_witness :
    OPFSCache.matchReq (.dir [("a", .file (.data [7]))]) (.str "/a") =
      .ok (some ⟨200, "", [], some [7], false⟩) ∧
    OPFSFileSystem.readEntry
      (.dir [("a", .file (.data [7])), ("a.meta", .file .invalid)]) [] "a" =
      .error .parseError ∧
    OPFSCache.matchReq
      (.dir [("a", .file (.data [7])), ("a.meta", .file .invalid)]) (.str "/a") =
      .error .parseError := by
  refine ⟨?_, ?_, ?_⟩
  · exact sidecar_absent_and_corrupt.1 (.dir [("a", .file (.data [7]))])
      (.str "/a") [] "a" [("a", .file (.data [7]))] [7] rfl rfl rfl rfl
  · exact (sidecar_absent_and_corrupt.2
      (.dir [("a", .file (.data [7])), ("a.meta", .file .invalid)])
      (.str "/a") [] "a" [("a", .file (.data [7])), ("a.meta", .file .invalid)]
      (.data [7]) .invalid rfl rfl rfl rfl rfl).1
  · exact (sidecar_absent_and_corrupt.2
      (.dir [("a", .file (.data [7])), ("a.meta", .file .invalid)])
      (.str "/a") [] "a" [("a", .file (.data [7])), ("a.meta", .file .invalid)]
      (.data [7]) .invalid rfl rfl rfl rfl rfl).2

/-- C3 (amended): the sidecar phase of `write` completes strictly before the
data phase starts, and for a key whose data file was absent beforehand, the
state left by an execution interrupted after the sidecar commit and before
the data write reports a miss through `exists`, `readEntry` and `match`
(data-file presence is the existence signal). For an overwrite of an
existing entry the interrupted state is not a miss; see the counterexample. -/
theorem write_meta_first_fresh_miss (t : Node) (dirp : List String) (f : String)
    (m : CacheEntryMeta) (body : Option (List Nat)) (t3 : Node)
    (hfresh : OPFSFileSystem.exists t dirp f = .ok false)
    (hphase : OPFSFileSystem.writeMetaPhase t dirp f m = .ok t3) :
    OPFSFileSystem.write t dirp f body m =
      OPFSFileSystem.writeDataPhase t3 dirp f body ∧
    OPFSFileSystem.exists t3 dirp f = .ok false ∧
    OPFSFileSystem.readEntry t3 dirp f = .ok none ∧
    ∀ r, resolvePath r = .ok ⟨dirp, f⟩ → OPFSCache.matchReq t3 r = .ok none := by
  refine ⟨by rw [OPFSFileSystem.write, hphase], ?_⟩
  cases t with
  | file c => exact absurd hphase (writeMetaPhase_file_not_ok _ _ _ _ _)
  | dir es =>
      obtain ⟨es3, hdir3, hnone3⟩ :=
        writeMetaPhase_preserves_absent dirp es f m t3 hphase hfresh
      have hex := exists_of_absent t3 dirp f es3 hdir3 hnone3
      have hrd := readEntry_of_absent t3 dirp f es3 hdir3 hnone3
      exact ⟨hex, hrd, fun r hres => by simp [OPFSCache.matchReq, hres, hrd]⟩

theorem write_meta_first_fresh_miss_witness :
    OPFSFileSystem.exists (Node.dir []) ["a"] "b" = .ok false ∧
    OPFSFileSystem.writeMetaPhase (Node.dir []) ["a"] "b" ⟨[], 200, "OK"⟩ =
      .ok (.dir [("a", .dir [("b" ++ META_SUFFIX,
        .file (.json ⟨[], 200, "OK"⟩))])]) ∧
    OPFSFileSystem.readEntry
      (.dir [("a", .dir [("b" ++ META_SUFFIX, .file (.json ⟨[], 200, "OK"⟩))])])
      ["a"] "b" = .ok none ∧
    OPFSCache.matchReq
      (.dir [("a", .dir [("b" ++ META_SUFFIX, .file (.json ⟨[], 200, "OK"⟩))])])
      (.str "/a/b") = .ok none :=
  ⟨rfl, rfl,
    (write_meta_first_fresh_miss (Node.dir []) ["a"] "b" ⟨[], 200, "OK"⟩ none
      (.dir [("a", .dir [("b" ++ META_SUFFIX, .file (.json ⟨[], 200, "OK"⟩))])])
      rfl rfl).2.2.1,
    (write_meta_first_fresh_miss (Node.dir []) ["a"] "b" ⟨[], 200, "OK"⟩ none
      (.dir [("a", .dir [("b" ++ META_SUFFIX, .file (.json ⟨[], 200, "OK"⟩))])])
      rfl rfl).2.2.2 (.str "/a/b") rfl⟩

/-- C3 counterexample: for an execution of `write` that overwrites an
existing entry, the state after the sidecar commit and before the data write
is not a miss: the old data file is still present, so `exists` reports true
and `readEntry` returns a hit pairing the old bytes with the new metadata,
contradicting the claim's "in every execution ... readEntry/exists/match
report a miss". -/
theorem write_interrupt_overwrite_counterexample :
    OPFSFileSystem.writeMetaPhase
        (.dir [("d", .file (.data [9])),
          ("d" ++ META_SUFFIX, .file (.json ⟨[], 200, ""⟩))])
        [] "d" ⟨[], 201, "x"⟩ =
      .ok (.dir [("d", .file (.data [9])),
        ("d" ++ META_SUFFIX, .file (.json ⟨[], 201, "x"⟩))]) ∧
    OPFSFileSystem.exists
        (.dir [("d", .file (.data [9])),
          ("d" ++ META_SUFFIX, .file (.json ⟨[], 201, "x"⟩))]) [] "d" =
      .ok true ∧
    OPFSFileSystem.readEntry
        (.dir [("d", .file (.data [9])),
          ("d" ++ META_SUFFIX, .file (.json ⟨[], 201, "x"⟩))]) [] "d" =
      .ok (some ⟨.data [9], some ⟨[], 201, "x"⟩⟩) :=
  ⟨rfl, rfl, rfl⟩

/-- C4: a key whose extracted pathname yields zero non-empty segments, or a
segment equal to `.` or `..`, makes `resolvePath` fail with a TypeError, and
an input that is not a string, request-like object or URL also fails with a
TypeError. `resolvePath` is pure and synchronous: it takes no tree argument,
so the failure occurs before any storage access. -/
theorem resolve_rejects_invalid :
    (∀ (r : RequestInfo) (pn srch : String),
        extractKey r = .ok (pn, srch) →
        ((splitSegs pn).filter (fun s => decide (0 < s.length)) = [] ∨
          "." ∈ (splitSegs pn).filter (fun s => decide (0 < s.length)) ∨
          ".." ∈ (splitSegs pn).filter (fun s => decide (0 < s.length))) →
        ∃ msg, resolvePath r = .error (.typeError msg)) ∧
    resolvePath .other = .error (.typeError "Expected a string, Request, or URL") := by
  constructor
  · intro r pn srch hex hcond
    simp only [resolvePath, hex]
    by_cases hz : (splitSegs pn).filter (fun s => decide (0 < s.length)) = []
    · rw [dif_pos hz]
      exact ⟨_, rfl⟩
    · rw [dif_neg hz]
      have hex2 : ∃ x ∈ (splitSegs pn).filter (fun s => decide (0 < s.length)),
          (x == "." || x == "..") = true := by
        rcases hcond with hc | hc | hc
        · exact absurd hc hz
        · exact ⟨".", hc, by decide⟩
        · exact ⟨"..", hc, by decide⟩
      cases hfind : ((splitSegs pn).filter (fun s => decide (0 < s.length))).find?
          (fun s => s == "." || s == "..") with
      | none =>
          rw [List.find?_eq_none] at hfind
          obtain ⟨x, hx, hpx⟩ := hex2
          exact absurd hpx (by simpa using hfind x hx)
      | some seg => exact ⟨_, rfl⟩
  · rfl

theorem resolve_rejects_invalid_witness :
    (∃ msg, resolvePath (.str "") = .error (.typeError msg)) ∧
    (∃ msg, resolvePath (.str "/") = .error (.typeError msg)) ∧
    (∃ msg, resolvePath (.str "/a/../b") = .error (.typeError msg)) ∧
    (∃ msg, resolvePath (.str "/./a") = .error (.typeError msg)) ∧
    resolvePath .other = .error (.typeError "Expected a string, Request, or URL") :=
  ⟨resolve_rejects_invalid.1 (.str "") "" "" rfl (by decide),
    resolve_rejects_invalid.1 (.str "/") "/" "" rfl (by decide),
    resolve_rejects_invalid.1 (.str "/a/../b") "/a/../b" "" rfl
      (by right; right; decide),
    resolve_rejects_invalid.1 (.str "/./a") "/./a" "" rfl
      (by right; left; decide),
    resolve_rejects_invalid.2⟩

/-- C10: whenever `resolvePath` returns, every dir segment is a non-empty
string different from `.` and `..`, and the file name is a non-empty path
segment (itself non-empty and not `.` or `..`) followed by the raw query
suffix. -/
theorem resolvePath_output_invariant (r : RequestInfo) (rp : ResolvedPath)
    (h : resolvePath r = .ok rp) :
    (∀ seg ∈ rp.dir, seg ≠ "" ∧ seg ≠ "." ∧ seg ≠ "..") ∧
    ∃ seg q, rp.file = seg ++ q ∧ seg ≠ "" ∧ seg ≠ "." ∧ seg ≠ ".." := by
  rw [resolvePath] at h
  cases hex : extractKey r with
  | error e => rw [hex] at h; exact absurd h (by simp)
  | ok ps =>
      rw [hex] at h
      simp only [] at h
      by_cases hz : (splitSegs ps.1).filter (fun s => decide (0 < s.length)) = []
      · rw [dif_pos hz] at h
        exact absurd h (by simp)
      · rw [dif_neg hz] at h
        cases hfind : ((splitSegs ps.1).filter (fun s => decide (0 < s.length))).find?
            (fun s => s == "." || s == "..") with
        | some seg => rw [hfind] at h; exact absurd h (by simp)
        | none =>
            rw [hfind] at h
            rw [List.find?_eq_none] at hfind
            have hmem : ∀ x ∈ (splitSegs ps.1).filter (fun s => decide (0 < s.length)),
                x ≠ "" ∧ x ≠ "." ∧ x ≠ ".." := by
              intro x hx
              have h1 := List.of_mem_filter hx
              have h2 := hfind x hx
              simp only [decide_eq_true_eq] at h1
              simp only [Bool.or_eq_true, beq_iff_eq, not_or] at h2
              refine ⟨?_, h2.1, h2.2⟩
              intro he
              subst he
              simp at h1
            have hrp : rp = ⟨((splitSegs ps.1).filter
                (fun s => decide (0 < s.length))).dropLast,
                ((splitSegs ps.1).filter
                  (fun s => decide (0 < s.length))).getLast hz ++ ps.2⟩ := by
              cases h
              rfl
            subst hrp
            constructor
            · intro seg hseg
              exact hmem seg (List.dropLast_subset _ hseg)
            · obtain ⟨hne, hd1, hd2⟩ := hmem _ (List.getLast_mem hz)
              exact ⟨_, ps.2, rfl, hne, hd1, hd2⟩

theorem resolvePath_output_invariant_witness :
    (∀ seg ∈ (ResolvedPath.mk ["models"] "a?rev=2").dir,
      seg ≠ "" ∧ seg ≠ "." ∧ seg ≠ "..") ∧
    ∃ seg q, (ResolvedPath.mk ["models"] "a?rev=2").file = seg ++ q ∧
      seg ≠ "" ∧ seg ≠ "." ∧ seg ≠ ".." :=
  resolvePath_output_invariant (.str "https://h/models/a?rev=2")
    ⟨["models"], "a?rev=2"⟩ rfl

/-- C8: a plain string that parses as an absolute URL, a request-like object
carrying that URL, and the structured URL value extracted from it resolve to
the same ResolvedPath, so `put` and `match` through any of the three forms
observe the same stored entry. -/
theorem key_forms_equivalent (s : String) (u : URLRecord)
    (hparse : parseURL s = some u) :
    resolvePath (.str s) = resolvePath (.url u) ∧
    resolvePath (.str s) = resolvePath (.request s) ∧
    (∀ t, OPFSCache.matchReq t (.str s) = OPFSCache.matchReq t (.url u) ∧
      OPFSCache.matchReq t (.str s) = OPFSCache.matchReq t (.request s)) ∧
    ∀ t resp, OPFSCache.put t (.str s) resp = OPFSCache.put t (.url u) resp ∧
      OPFSCache.put t (.str s) resp = OPFSCache.put t (.request s) resp := by
  have h1 : resolvePath (.str s) = resolvePath (.url u) := by
    rw [resolvePath, resolvePath]
    simp [extractKey, hparse]
  have h2 : resolvePath (.str s) = resolvePath (.request s) := by
    rw [resolvePath, resolvePath]
    simp [extractKey, hparse]
  refine ⟨h1, h2, fun t => ⟨?_, ?_⟩, fun t resp => ⟨?_, ?_⟩⟩
  · rw [OPFSCache.matchReq, OPFSCache.matchReq, h1]
  · rw [OPFSCache.matchReq, OPFSCache.matchReq, h2]
  · rw [OPFSCache.put, OPFSCache.put, h1]
  · rw [OPFSCache.put, OPFSCache.put, h2]

theorem key_forms_equivalent_witness :
    parseURL "https://h/a?x=1" = some ⟨"/a", "?x=1"⟩ ∧
    resolvePath (.str "https://h/a?x=1") = resolvePath (.url ⟨"/a", "?x=1"⟩) ∧
    resolvePath (.str "https://h/a?x=1") =
      resolvePath (.request "https://h/a?x=1") ∧
    OPFSCache.matchReq (.dir []) (.str "https://h/a?x=1") =
      OPFSCache.matchReq (.dir []) (.url ⟨"/a", "?x=1"⟩) :=
  ⟨rfl, (key_forms_equivalent "https://h/a?x=1" ⟨"/a", "?x=1"⟩ rfl).1,
    (key_forms_equivalent "https://h/a?x=1" ⟨"/a", "?x=1"⟩ rfl).2.1,
    ((key_forms_equivalent "https://h/a?x=1" ⟨"/a", "?x=1"⟩ rfl).2.2.1
      (.dir [])).1⟩


/-! ### Case analysis of a successful `delete` -/

theorem delete_ok_cases (t : Node) (dirp : List String) (f : String)
    (t' : Node) (b : Bool)
    (hdel : OPFSFileSystem.delete t dirp f = .ok (t', b)) :
    (b = false ∧ dataAt t dirp f = none ∧
      t' = match removeEntryE t dirp (f ++ META_SUFFIX) with
        | .ok u => u
        | .error _ => t) ∨
    (b = true ∧ ∃ c, dataAt t dirp f = some (.file c)) ∨
    (b = true ∧ ∃ sub, dataAt t dirp f = some (.dir sub) ∧ sub.isEmpty = true) := by
  rw [OPFSFileSystem.delete] at hdel
  cases hnav : navigate t dirp false with
  | error e => rw [hnav] at hdel; exact absurd hdel (by simp)
  | ok pr =>
      obtain ⟨t1, b1⟩ := pr
      have ht1 : t1 = t := navigate_false_eq dirp t t1 b1 hnav
      subst ht1
      rw [hnav] at hdel
      simp only [] at hdel
      cases b1 with
      | false =>
          simp only [Bool.false_eq_true, if_false, Except.ok.injEq,
            Prod.mk.injEq] at hdel
          have hnone := navigate_false_none dirp t1 t1 hnav
          have hrm : removeEntryE t1 dirp (f ++ META_SUFFIX) = .error .notFound := by
            simp [removeEntryE, hnone]
          refine Or.inl ⟨hdel.2.symm, by simp [dataAt, hnone], ?_⟩
          rw [hrm]
          exact hdel.1.symm
      | true =>
          simp only [if_true] at hdel
          cases hdir : dirEntriesAt t1 dirp with
          | none =>
              have hrmd : removeEntryE t1 dirp f = .error .notFound := by
                simp [removeEntryE, hdir]
              have hrmm : removeEntryE t1 dirp (f ++ META_SUFFIX) =
                  .error .notFound := by
                simp [removeEntryE, hdir]
              rw [hrmd] at hdel
              simp only [] at hdel
              rw [hrmm] at hdel
              simp only [Except.ok.injEq, Prod.mk.injEq] at hdel
              refine Or.inl ⟨hdel.2.symm, by simp [dataAt, hdir], ?_⟩
              rw [hrmm]
              exact hdel.1.symm
          | some es =>
              cases hcf : findEntry es f with
              | none =>
                  have hrmd : removeEntryE t1 dirp f = .error .notFound := by
                    simp [removeEntryE, hdir, hcf]
                  rw [hrmd] at hdel
                  simp only [] at hdel
                  cases hrm : removeEntryE t1 dirp (f ++ META_SUFFIX) with
                  | ok t3 =>
                      rw [hrm] at hdel
                      simp only [Except.ok.injEq, Prod.mk.injEq] at hdel
                      exact Or.inl ⟨hdel.2.symm, by simp [dataAt, hdir, hcf],
                        hdel.1.symm⟩
                  | error e =>
                      rw [hrm] at hdel
                      cases e
                      case notFound =>
                          simp only [Except.ok.injEq, Prod.mk.injEq] at hdel
                          exact Or.inl ⟨hdel.2.symm, by simp [dataAt, hdir, hcf],
                            hdel.1.symm⟩
                      all_goals exact absurd hdel (by simp)
              | some n =>
                  cases n with
                  | file c =>
                      have hrmd : removeEntryE t1 dirp f =
                          .ok (setDirAt t1 dirp (eraseEntry es f)) := by
                        simp [removeEntryE, hdir, hcf]
                      rw [hrmd] at hdel
                      simp only [] at hdel
                      cases hrm : removeEntryE (setDirAt t1 dirp (eraseEntry es f))
                          dirp (f ++ META_SUFFIX) with
                      | ok t3 =>
                          rw [hrm] at hdel
                          simp only [Except.ok.injEq, Prod.mk.injEq] at hdel
                          exact Or.inr (Or.inl ⟨hdel.2.symm, c,
                            by simp [dataAt, hdir, hcf]⟩)
                      | error e =>
                          rw [hrm] at hdel
                          cases e
                          case notFound =>
                              simp only [Except.ok.injEq, Prod.mk.injEq] at hdel
                              exact Or.inr (Or.inl ⟨hdel.2.symm, c,
                                by simp [dataAt, hdir, hcf]⟩)
                          all_goals exact absurd hdel (by simp)
                  | dir sub =>
                      cases hse : sub.isEmpty with
                      | false =>
                          have hrmd : removeEntryE t1 dirp f =
                              .error .invalidModification := by
                            simp [removeEntryE, hdir, hcf, hse]
                          rw [hrmd] at hdel
                          exact absurd hdel (by simp)
                      | true =>
                          have hrmd : removeEntryE t1 dirp f =
                              .ok (setDirAt t1 dirp (eraseEntry es f)) := by
                            simp [removeEntryE, hdir, hcf, hse]
                          rw [hrmd] at hdel
                          simp only [] at hdel
                          cases hrm : removeEntryE (setDirAt t1 dirp (eraseEntry es f))
                              dirp (f ++ META_SUFFIX) with
                          | ok t3 =>
                              rw [hrm] at hdel
                              simp only [Except.ok.injEq, Prod.mk.injEq] at hdel
                              exact Or.inr (Or.inr ⟨hdel.2.symm, sub,
                                by simp [dataAt, hdir, hcf], hse⟩)
                          | error e =>
                              rw [hrm] at hdel
                              cases e
                              case notFound =>
                                  simp only [Except.ok.injEq, Prod.mk.injEq] at hdel
                                  exact Or.inr (Or.inr ⟨hdel.2.symm, sub,
                                    by simp [dataAt, hdir, hcf], hse⟩)
                              all_goals exact absurd hdel (by simp)

/-- C5 (amended): provided the data-file name is not occupied by a directory
at the resolved location, `delete` returns true exactly when the data file
existed at the time of the call, independent of sidecar presence; when the
directory path is missing it returns false without raising; when the data
file did not exist the returned tree is exactly the result of the sidecar
removal alone — ancestor-directory pruning runs only when the data file
existed; and absence of the data file or of the sidecar is never surfaced
as an error: in every combination of data-file/sidecar presence (both
absent, data only, sidecar only, both present) `delete` completes with
`.ok` and the stated Boolean. The no-directory proviso is forced by OPFS
`removeEntry` succeeding on an empty directory; see the counterexample. -/
theorem delete_returns_existed (t : Node) (dirp : List String) (f : String) :
    (∀ t' b, OPFSFileSystem.delete t dirp f = .ok (t', b) →
        (∀ sub, dataAt t dirp f ≠ some (.dir sub)) →
        (b = true ↔ ∃ c, dataAt t dirp f = some (.file c))) ∧
    (navigate t dirp false = .ok (t, false) →
        OPFSFileSystem.delete t dirp f = .ok (t, false)) ∧
    (∀ t', OPFSFileSystem.delete t dirp f = .ok (t', false) →
        t' = match removeEntryE t dirp (f ++ META_SUFFIX) with
          | .ok u => u
          | .error _ => t) ∧
    (∀ es, dirEntriesAt t dirp = some es →
        findEntry es f = none →
        findEntry es (f ++ META_SUFFIX) = none →
        OPFSFileSystem.delete t dirp f = .ok (t, false)) ∧
    (∀ es c, dirEntriesAt t dirp = some es →
        findEntry es f = some (.file c) →
        findEntry es (f ++ META_SUFFIX) = none →
        OPFSFileSystem.delete t dirp f =
          .ok (OPFSFileSystem.cleanEmptyDirs
            (setDirAt t dirp (eraseEntry es f)) dirp, true)) ∧
    (∀ es mc, dirEntriesAt t dirp = some es →
        findEntry es f = none →
        findEntry es (f ++ META_SUFFIX) = some (.file mc) →
        OPFSFileSystem.delete t dirp f =
          .ok (setDirAt t dirp (eraseEntry es (f ++ META_SUFFIX)), false)) ∧
    (∀ es c mc, dirEntriesAt t dirp = some es →
        findEntry es f = some (.file c) →
        findEntry es (f ++ META_SUFFIX) = some (.file mc) →
        ∃ t', OPFSFileSystem.delete t dirp f = .ok (t', true)) := by
  refine ⟨?_, ?_, ?_, ?_, ?_, ?_, ?_⟩
  · intro t' b hdel hnd
    rcases delete_ok_cases t dirp f t' b hdel with h | h | h
    · rw [h.1]
      simp [h.2.1]
    · rw [h.1]
      simp only [true_iff]
      exact h.2
    · obtain ⟨_, sub, hs, _⟩ := h
      exact absurd hs (hnd sub)
  · intro hnav
    rw [OPFSFileSystem.delete, hnav]
    simp
  · intro t' hdel
    rcases delete_ok_cases t dirp f t' false hdel with h | h | h
    · exact h.2.2
    · exact absurd h.1 (by simp)
    · exact absurd h.1 (by simp)
  · intro es hdir hcf hcm
    have hnav := navigate_false_of_some dirp t es hdir
    have hrmd : removeEntryE t dirp f = .error .notFound := by
      simp [removeEntryE, hdir, hcf]
    have hrmm : removeEntryE t dirp (f ++ META_SUFFIX) = .error .notFound := by
      simp [removeEntryE, hdir, hcm]
    rw [OPFSFileSystem.delete, hnav]
    simp [hrmd, hrmm]
  · intro es c hdir hcf hcm
    have hnav := navigate_false_of_some dirp t es hdir
    have hrmd : removeEntryE t dirp f =
        .ok (setDirAt t dirp (eraseEntry es f)) := by
      simp [removeEntryE, hdir, hcf]
    have hdir2 : dirEntriesAt (setDirAt t dirp (eraseEntry es f)) dirp =
        some (eraseEntry es f) := dirEntriesAt_setDirAt_self dirp t es _ hdir
    have hcm2 : findEntry (eraseEntry es f) (f ++ META_SUFFIX) = none := by
      rw [findEntry_eraseEntry_ne es f (f ++ META_SUFFIX) (append_meta_ne_self f)]
      exact hcm
    have hrmm : removeEntryE (setDirAt t dirp (eraseEntry es f)) dirp
        (f ++ META_SUFFIX) = .error .notFound := by
      simp [removeEntryE, hdir2, hcm2]
    rw [OPFSFileSystem.delete, hnav]
    simp [hrmd, hrmm]
  · intro es mc hdir hcf hcm
    have hnav := navigate_false_of_some dirp t es hdir
    have hrmd : removeEntryE t dirp f = .error .notFound := by
      simp [removeEntryE, hdir, hcf]
    have hrmm : removeEntryE t dirp (f ++ META_SUFFIX) =
        .ok (setDirAt t dirp (eraseEntry es (f ++ META_SUFFIX))) := by
      simp [removeEntryE, hdir, hcm]
    rw [OPFSFileSystem.delete, hnav]
    simp [hrmd, hrmm]
  · intro es c mc hdir hcf hcm
    have hnav := navigate_false_of_some dirp t es hdir
    have hrmd : removeEntryE t dirp f =
        .ok (setDirAt t dirp (eraseEntry es f)) := by
      simp [removeEntryE, hdir, hcf]
    have hdir2 : dirEntriesAt (setDirAt t dirp (eraseEntry es f)) dirp =
        some (eraseEntry es f) := dirEntriesAt_setDirAt_self dirp t es _ hdir
    have hcm2 : findEntry (eraseEntry es f) (f ++ META_SUFFIX) =
        some (.file mc) := by
      rw [findEntry_eraseEntry_ne es f (f ++ META_SUFFIX) (append_meta_ne_self f)]
      exact hcm
    have hrmm : removeEntryE (setDirAt t dirp (eraseEntry es f)) dirp
        (f ++ META_SUFFIX) =
        .ok (setDirAt (setDirAt t dirp (eraseEntry es f)) dirp
          (eraseEntry (eraseEntry es f) (f ++ META_SUFFIX))) := by
      simp [removeEntryE, hdir2, hcm2]
    refine ⟨OPFSFileSystem.cleanEmptyDirs
      (setDirAt (setDirAt t dirp (eraseEntry es f)) dirp
        (eraseEntry (eraseEntry es f) (f ++ META_SUFFIX))) dirp, ?_⟩
    rw [OPFSFileSystem.delete, hnav]
    simp [hrmd, hrmm]

theorem delete_returns_existed_witness :
    (OPFSFileSystem.delete (.dir [("x", .file (.data [1])),
        ("x" ++ META_SUFFIX, .file (.json ⟨[], 200, ""⟩))]) [] "x" =
      .ok (.dir [], true) ∧
      (true = true ↔ ∃ c, dataAt (.dir [("x", .file (.data [1])),
        ("x" ++ META_SUFFIX, .file (.json ⟨[], 200, ""⟩))]) [] "x" =
          some (.file c))) ∧
    OPFSFileSystem.delete (.dir []) ["q"] "x" = .ok (.dir [], false) ∧
    OPFSFileSystem.delete (.dir [("w", .file (.data [5]))]) [] "x" =
      .ok (.dir [("w", .file (.data [5]))], false) ∧
    OPFSFileSystem.delete (.dir [("x", .file (.data [1]))]) [] "x" =
      .ok (.dir [], true) ∧
    OPFSFileSystem.delete
        (.dir [("x" ++ META_SUFFIX, .file (.json ⟨[], 200, ""⟩))]) [] "x" =
      .ok (.dir [], false) ∧
    (∃ t', OPFSFileSystem.delete (.dir [("x", .file (.data [1])),
        ("x" ++ META_SUFFIX, .file (.json ⟨[], 200, ""⟩))]) [] "x" =
      .ok (t', true)) := by
  refine ⟨⟨rfl, ?_⟩, ?_, ?_, ?_, ?_, ?_⟩
  · exact (delete_returns_existed (.dir [("x", .file (.data [1])),
      ("x" ++ META_SUFFIX, .file (.json ⟨[], 200, ""⟩))]) [] "x").1
      (.dir []) true rfl (by intro sub h; exact absurd h (by simp [dataAt,
        dirEntriesAt, findEntry]))
  · exact (delete_returns_existed (.dir []) ["q"] "x").2.1 rfl
  · exact (delete_returns_existed (.dir [("w", .file (.data [5]))]) []
      "x").2.2.2.1 [("w", .file (.data [5]))] rfl rfl rfl
  · exact (delete_returns_existed (.dir [("x", .file (.data [1]))]) []
      "x").2.2.2.2.1 [("x", .file (.data [1]))] (.data [1]) rfl rfl rfl
  · exact (delete_returns_existed
      (.dir [("x" ++ META_SUFFIX, .file (.json ⟨[], 200, ""⟩))]) []
      "x").2.2.2.2.2.1 [("x" ++ META_SUFFIX, .file (.json ⟨[], 200, ""⟩))]
      (.json ⟨[], 200, ""⟩) rfl rfl rfl
  · exact (delete_returns_existed (.dir [("x", .file (.data [1])),
      ("x" ++ META_SUFFIX, .file (.json ⟨[], 200, ""⟩))]) []
      "x").2.2.2.2.2.2 [("x", .file (.data [1])),
        ("x" ++ META_SUFFIX, .file (.json ⟨[], 200, ""⟩))]
      (.data [1]) (.json ⟨[], 200, ""⟩) rfl rfl rfl

/-- C5 counterexample: when the data-file name is occupied by an empty
directory (reachable, e.g., by a write interrupted after directory creation),
OPFS `removeEntry` succeeds on it, so `delete` returns true even though no
data file existed — refuting "returns true if and only if the data file
existed" as stated. -/
theorem delete_empty_dir_counterexample :
    OPFSFileSystem.delete (.dir [("b", .dir [])]) [] "b" = .ok (.dir [], true) ∧
    dataAt (.dir [("b", .dir [])]) [] "b" = some (.dir []) :=
  ⟨rfl, rfl⟩

/-- C6: deleting the only entry stored under the nested directory path
`a/b/c` prunes `c`, then `b`, then `a` (deepest first, each only while
empty); with a sibling entry under `a/b/d` the climb halts at `b`, leaving
`a` and `b` (and the sibling) intact. `cleanEmptyDirs` is a total function
into `Node` (every failure is swallowed), so pruning never raises. -/
theorem prune_empty_dirs (f : String) (d1 m1 d2 : Content) :
    OPFSFileSystem.delete
        (.dir [("a", .dir [("b", .dir [("c", .dir
          [(f, .file d1), (f ++ META_SUFFIX, .file m1)])])])])
        ["a", "b", "c"] f = .ok (.dir [], true) ∧
    OPFSFileSystem.delete
        (.dir [("a", .dir [("b", .dir [("c", .dir
          [(f, .file d1), (f ++ META_SUFFIX, .file m1)]),
          ("d", .dir [("g", .file d2)])])])])
        ["a", "b", "c"] f =
      .ok (.dir [("a", .dir [("b", .dir [("d", .dir [("g", .file d2)])])])], true) := by
  constructor <;>
    simp [OPFSFileSystem.delete, OPFSFileSystem.cleanEmptyDirs, removeLoop,
      navigate, removeEntryE, dirEntriesAt, setDirAt, findEntry, setEntry,
      eraseEntry, Except.map, self_ne_append_meta f, append_meta_ne_self f]

/-! ### Listing after a sequence of `put` calls -/

theorem putList_walk :
    ∀ (ks : List (RequestInfo × Response)) (rps : List ResolvedPath)
      (t t' : Node),
      List.Forall₂ (fun kr rp => resolvePath kr.1 = Except.ok rp) ks rps →
      (∀ rp ∈ rps, endsWithMeta rp.file = false) →
      (∀ rp ∈ rps, rp.toPath ∉ OPFSFileSystem.list t) →
      (rps.map ResolvedPath.toPath).Nodup →
      putList t ks = .ok t' →
      List.Perm (OPFSFileSystem.list t')
        (rps.map ResolvedPath.toPath ++ OPFSFileSystem.list t) := by
  intro ks
  induction ks with
  | nil =>
      intro rps t t' hf hsuf hnotin hnd hput
      cases hf
      simp only [putList, Except.ok.injEq] at hput
      subst hput
      simp
  | cons k ks ih =>
      intro rps t t' hf hsuf hnotin hnd hput
      obtain ⟨r, resp⟩ := k
      cases hf with
      | cons hk hrest =>
          rename_i rp0 rps'
          rw [putList] at hput
          cases hp : OPFSCache.put t r resp with
          | error e => rw [hp] at hput; exact absurd hput (by simp)
          | ok t1 =>
              rw [hp] at hput
              simp only [] at hput
              obtain ⟨hbu, rp, hres1, hw⟩ := put_ok_elim t r resp t1 hp
              have hrp : rp0 = rp := by
                rw [hk] at hres1
                injection hres1
              subst hrp
              cases t with
              | file c => exact absurd hw (write_file_not_ok _ _ _ _ _ _)
              | dir es =>
                  have hsufh : endsWithMeta rp0.file = false :=
                    hsuf rp0 (List.mem_cons_self rp0 rps')
                  have hnof : ∀ c, dataAt (.dir es) rp0.dir rp0.file ≠
                      some (.file c) := by
                    intro c hc
                    have hmem := dataAt_mem_walk rp0.dir (.dir es) rp0.file c []
                      hc hsufh
                    simp only [List.nil_append] at hmem
                    exact hnotin rp0 (List.mem_cons_self rp0 rps') hmem
                  have hperm1 := walk_write rp0.dir es rp0.file resp.body _ t1 []
                    hw hsufh hnof
                  simp only [List.nil_append] at hperm1
                  have hperm1' : List.Perm (OPFSFileSystem.list t1)
                      (rp0.toPath :: OPFSFileSystem.list (.dir es)) := hperm1
                  have hnd2 : ResolvedPath.toPath rp0 ∉
                      rps'.map ResolvedPath.toPath ∧
                      (rps'.map ResolvedPath.toPath).Nodup := by
                    rw [List.map_cons] at hnd
                    exact List.nodup_cons.mp hnd
                  have hnotin' : ∀ rp0' ∈ rps', ResolvedPath.toPath rp0' ∉
                      OPFSFileSystem.list t1 := by
                    intro rp0' hrp' hmem
                    have := (hperm1'.mem_iff).mp hmem
                    rcases List.mem_cons.mp this with heq | hmem2
                    · exact hnd2.1 (heq ▸ List.mem_map_of_mem _ hrp')
                    · exact hnotin rp0' (List.mem_cons_of_mem _ hrp') hmem2
                  have hndtail : (rps'.map ResolvedPath.toPath).Nodup := hnd2.2
                  have hrec := ih rps' t1 t' hrest
                    (fun rp0' h => hsuf rp0' (List.mem_cons_of_mem _ h))
                    hnotin' hndtail hput
                  refine hrec.trans ?_
                  calc
                    List.Perm
                      (rps'.map ResolvedPath.toPath ++ OPFSFileSystem.list t1)
                      (rps'.map ResolvedPath.toPath ++
                        (rp0.toPath :: OPFSFileSystem.list (.dir es))) :=
                      hperm1'.append_left _
                    _ ~ rp0.toPath :: (rps'.map ResolvedPath.toPath ++
                        OPFSFileSystem.list (.dir es)) := List.perm_middle
                    _ = (rp0 :: rps').map ResolvedPath.toPath ++
                        OPFSFileSystem.list (.dir es) := by simp

/-- C2 (amended): after putting N keys with pairwise-distinct resolved paths
none of whose resolved file names ends with the sidecar suffix `.meta`,
`keys()` with no argument returns exactly N entries — a permutation of the
resolved root-relative paths, one per stored key — and sidecar files never
appear. The suffix proviso is forced: a key whose own file name ends in
`.meta` is stored but filtered out of the listing; see the counterexample. -/
theorem keys_listing_complete (ks : List (RequestInfo × Response))
    (rps : List ResolvedPath) (t' : Node)
    (hres : List.Forall₂ (fun kr rp => resolvePath kr.1 = Except.ok rp) ks rps)
    (hsuf : ∀ rp ∈ rps, endsWithMeta rp.file = false)
    (hnd : (rps.map ResolvedPath.toPath).Nodup)
    (hput : putList (.dir []) ks = .ok t') :
    List.Perm (OPFSFileSystem.list t') (rps.map ResolvedPath.toPath) ∧
    (OPFSCache.keysAll t').length = ks.length ∧
    ∀ p ∈ OPFSFileSystem.list t', ∃ rp ∈ rps, p = rp.dir ++ [rp.file] := by
  have hempty : OPFSFileSystem.list (Node.dir []) = [] := by
    simp [OPFSFileSystem.list, walkNode]
  have hperm := putList_walk ks rps (.dir []) t' hres hsuf
    (by simp [hempty]) hnd hput
  rw [hempty, List.append_nil] at hperm
  refine ⟨hperm, ?_, ?_⟩
  · rw [OPFSCache.keysAll, List.length_map, hperm.length_eq, List.length_map,
      List.Forall₂.length_eq hres]
  · intro p hp
    have := hperm.mem_iff.mp hp
    obtain ⟨rp, hrp, heq⟩ := List.mem_map.mp this
    exact ⟨rp, hrp, heq.symm⟩

theorem keys_listing_complete_witness :
    putList (.dir []) [(.str "/a", ⟨200, "", [], some [1], false⟩),
        (.str "/b/c", ⟨200, "", [], none, false⟩)] =
      .ok (.dir [("a" ++ META_SUFFIX, .file (.json ⟨[], 200, ""⟩)),
        ("a", .file (.data [1])),
        ("b", .dir [("c" ++ META_SUFFIX, .file (.json ⟨[], 200, ""⟩)),
          ("c", .file (.data []))])]) ∧
    List.Perm (OPFSFileSystem.list
        (.dir [("a" ++ META_SUFFIX, .file (.json ⟨[], 200, ""⟩)),
          ("a", .file (.data [1])),
          ("b", .dir [("c" ++ META_SUFFIX, .file (.json ⟨[], 200, ""⟩)),
            ("c", .file (.data []))])]))
      [["a"], ["b", "c"]] ∧
    (OPFSCache.keysAll
        (.dir [("a" ++ META_SUFFIX, .file (.json ⟨[], 200, ""⟩)),
          ("a", .file (.data [1])),
          ("b", .dir [("c" ++ META_SUFFIX, .file (.json ⟨[], 200, ""⟩)),
            ("c", .file (.data []))])])).length = 2 := by
  refine ⟨rfl, ?_, ?_⟩
  · exact (keys_listing_complete
      [(.str "/a", ⟨200, "", [], some [1], false⟩),
        (.str "/b/c", ⟨200, "", [], none, false⟩)]
      [⟨[], "a"⟩, ⟨["b"], "c"⟩] _
      (List.Forall₂.cons rfl (List.Forall₂.cons rfl List.Forall₂.nil))
      (by decide) (by decide) rfl).1
  · exact (keys_listing_complete
      [(.str "/a", ⟨200, "", [], some [1], false⟩),
        (.str "/b/c", ⟨200, "", [], none, false⟩)]
      [⟨[], "a"⟩, ⟨["b"], "c"⟩] _
      (List.Forall₂.cons rfl (List.Forall₂.cons rfl List.Forall₂.nil))
      (by decide) (by decide) rfl).2.1

/-- C2 counterexample: the key `/a.meta` resolves and is stored, but `walk`
filters every file name ending in `.meta`, so after putting this one key
`keys()` returns zero entries instead of one — refuting the claim as stated
(N = 1 distinct key put, 0 entries listed). -/
theorem keys_meta_suffix_counterexample :
    resolvePath (.str "/a.meta") = .ok ⟨[], "a.meta"⟩ ∧
    putList (.dir []) [(.str "/a.meta", ⟨200, "", [], some [1], false⟩)] =
      .ok (.dir [("a.meta" ++ META_SUFFIX, .file (.json ⟨[], 200, ""⟩)),
        ("a.meta", .file (.data [1]))]) ∧
    OPFSCache.keysAll (.dir [("a.meta" ++ META_SUFFIX, .file (.json ⟨[], 200, ""⟩)),
      ("a.meta", .file (.data [1]))]) = [] := by
  refine ⟨rfl, rfl, ?_⟩
  simp [OPFSCache.keysAll, OPFSFileSystem.list, walkNode,
    show endsWithMeta ("a.meta" ++ META_SUFFIX) = true from by decide,
    show endsWithMeta "a.meta" = true from by decide]

/-- C9 (amended): putting the same key twice in sequence overwrites the
entry in place: `match` then returns the second response's body and
metadata, and — provided the resolved file name does not end with the
sidecar suffix `.meta` — `keys()` lists the key exactly once (no duplicate
entry is created for the same resolved path). The suffix proviso is forced:
a `.meta`-suffixed key is stored but never listed; see the counterexample. -/
theorem put_overwrites_in_place (r : RequestInfo) (rp : ResolvedPath)
    (R1 R2 : Response) (B2 : List Nat) (t1 t2 : Node)
    (hres : resolvePath r = .ok rp)
    (hsuf : endsWithMeta rp.file = false)
    (hB2 : R2.body = some B2)
    (h1 : OPFSCache.put (.dir []) r R1 = .ok t1)
    (h2 : OPFSCache.put t1 r R2 = .ok t2) :
    OPFSCache.matchReq t2 r = .ok (some
      { status := R2.status, statusText := R2.statusText,
        headers := R2.headers, body := some B2, bodyUsed := false }) ∧
    OPFSFileSystem.list t2 = [rp.dir ++ [rp.file]] := by
  constructor
  · have := put_then_match t1 r R2 t2 h2
    rwa [hB2] at this
  · obtain ⟨_, rp1, hres1, hw1⟩ := put_ok_elim (.dir []) r R1 t1 h1
    have hrp1 : rp = rp1 := by rw [hres] at hres1; injection hres1
    subst hrp1
    have hperm1 := walk_write rp.dir [] rp.file R1.body _ t1 [] hw1 hsuf
      (by intro c hc; rw [dataAt_fresh] at hc; exact absurd hc (by simp))
    have hempty : walkNode [] (Node.dir []) = [] := by simp [walkNode]
    rw [hempty] at hperm1
    simp only [List.nil_append] at hperm1
    obtain ⟨_, rp2, hres2, hw2⟩ := put_ok_elim t1 r R2 t2 h2
    have hrp2 : rp = rp2 := by rw [hres] at hres2; injection hres2
    subst hrp2
    obtain ⟨es1, ht1⟩ := write_ok_dir rp.dir [] rp.file R1.body _ t1 hw1
    obtain ⟨es', hdir1, hdata1, _⟩ := write_ok_files rp.dir [] rp.file R1.body _ t1 hw1
    have hdataAt : ∃ c, dataAt t1 rp.dir rp.file = some (.file c) :=
      ⟨Content.data (bytesOf R1.body), by simp [dataAt, hdir1, hdata1]⟩
    subst ht1
    have hperm2 := walk_write_present rp.dir es1 rp.file R2.body _ t2 [] hw2 hdataAt
    have : List.Perm (OPFSFileSystem.list t2) [rp.dir ++ [rp.file]] :=
      (hperm2.trans hperm1)
    exact List.perm_singleton.mp this

theorem put_overwrites_in_place_witness :
    OPFSCache.put (.dir []) (.str "/a") ⟨200, "", [], some [1], false⟩ =
      .ok (.dir [("a" ++ META_SUFFIX, .file (.json ⟨[], 200, ""⟩)),
        ("a", .file (.data [1]))]) ∧
    OPFSCache.put (.dir [("a" ++ META_SUFFIX, .file (.json ⟨[], 200, ""⟩)),
        ("a", .file (.data [1]))]) (.str "/a")
        ⟨201, "c", [("h", "v")], some [2, 3], false⟩ =
      .ok (.dir [("a" ++ META_SUFFIX, .file (.json ⟨[("h", "v")], 201, "c"⟩)),
        ("a", .file (.data [2, 3]))]) ∧
    OPFSCache.matchReq (.dir [("a" ++ META_SUFFIX,
        .file (.json ⟨[("h", "v")], 201, "c"⟩)),
        ("a", .file (.data [2, 3]))]) (.str "/a") =
      .ok (some ⟨201, "c", [("h", "v")], some [2, 3], false⟩) ∧
    OPFSFileSystem.list (.dir [("a" ++ META_SUFFIX,
        .file (.json ⟨[("h", "v")], 201, "c"⟩)),
        ("a", .file (.data [2, 3]))]) = [["a"]] := by
  refine ⟨rfl, rfl, ?_, ?_⟩
  · exact (put_overwrites_in_place (.str "/a") ⟨[], "a"⟩
      ⟨200, "", [], some [1], false⟩ ⟨201, "c", [("h", "v")], some [2, 3], false⟩
      [2, 3] _ _ rfl (by decide) rfl rfl rfl).1
  · exact (put_overwrites_in_place (.str "/a") ⟨[], "a"⟩
      ⟨200, "", [], some [1], false⟩ ⟨201, "c", [("h", "v")], some [2, 3], false⟩
      [2, 3] _ _ rfl (by decide) rfl rfl rfl).2

/-- C9 counterexample: for the key `/x.meta`, two sequential puts do
overwrite in place, but `keys()` lists the key zero times rather than
exactly once, because the listing filters every name ending in `.meta` —
refuting the claim as stated. -/
theorem put_put_keys_meta_counterexample :
    resolvePath (.str "/x.meta") = .ok ⟨[], "x.meta"⟩ ∧
    OPFSCache.put (.dir []) (.str "/x.meta") ⟨200, "", [], some [1], false⟩ =
      .ok (.dir [("x.meta" ++ META_SUFFIX, .file (.json ⟨[], 200, ""⟩)),
        ("x.meta", .file (.data [1]))]) ∧
    OPFSCache.put (.dir [("x.meta" ++ META_SUFFIX, .file (.json ⟨[], 200, ""⟩)),
        ("x.meta", .file (.data [1]))]) (.str "/x.meta")
        ⟨201, "c", [], some [2], false⟩ =
      .ok (.dir [("x.meta" ++ META_SUFFIX, .file (.json ⟨[], 201, "c"⟩)),
        ("x.meta", .file (.data [2]))]) ∧
    OPFSCache.keysAll (.dir [("x.meta" ++ META_SUFFIX, .file (.json ⟨[], 201, "c"⟩)),
        ("x.meta", .file (.data [2]))]) = [] := by
  refine ⟨rfl, rfl, rfl, ?_⟩
  simp [OPFSCache.keysAll, OPFSFileSystem.list, walkNode,
    show endsWithMeta ("x.meta" ++ META_SUFFIX) = true from by decide,
    show endsWithMeta "x.meta" = true from by decide]
